import Mathlib

/-!
# The object variant of package jd (lib/object.go)

A shallow embedding of `jsonObject` and of the operations `Equals`, `hashCode`,
`ident`, `diff` and `patch` defined on it in `lib/object.go`.

* A Go `map[string]JsonNode` is an association list; the order of the list is
  the (unspecified) storage order of the map.  A list stands for a map when its
  keys are distinct (`JsonNode.WF`).
* The other implementations of the `JsonNode` interface, and the package level
  functions `hash` and `hashCodes.combine`, live outside `object.go`.  They are
  the fields of a `Package`, over which all definitions are parameterised.
* In-place mutation of `o.properties` by `patch` is rendered by returning the
  object with the updated property list.
-/

namespace Jd

/-- A hash code: the Go type `[8]byte`. -/
abbrev HashCode := { bs : List UInt8 // bs.length = 8 }

/-- The tagged union behind the Go interface `JsonNode`.  `object` is `jsonObject`
(its `properties` map and its `idKeys`), `void` is `voidNode`, and `leaf` stands
for a value of any other variant (array, string, number, bool, null), whose
representation `L` is left open. -/
inductive JsonNode (L : Type) where
  | object (properties : List (String × JsonNode L)) (idKeys : List String)
  | void
  | leaf (value : L)

/-- A path element: a string (object key), an integer index, or an identity
mapping (`map[string]interface{}`). -/
inductive PathElement (L : Type) where
  | key (k : String)
  | index (i : Int)
  | ident (m : List (String × JsonNode L))

/-- A path from the document root: the Go type `Path`. -/
abbrev Path (L : Type) := List (PathElement L)

/-- One change record: the Go type `DiffElement`. -/
structure DiffElement (L : Type) where
  Path : Path L
  OldValues : List (JsonNode L)
  NewValues : List (JsonNode L)

/-- An ordered list of change records: the Go type `Diff`. -/
abbrev Diff (L : Type) := List (DiffElement L)

/-- The errors a patch can return, each with the path consumed so far and the
offending values. -/
inductive PatchError (L : Type) where
  | nonSetDiffEntry (oldValues newValues : List (JsonNode L)) (pathBehind : Path L)
  | patchConflict (want found : JsonNode L) (pathBehind : Path L)
  | pathTypeMismatch (found : JsonNode L) (pathBehind : Path L)

/-- The result of a patch: the Go pair `(JsonNode, error)`. -/
abbrev PatchResult (L : Type) := Except (PatchError L) (JsonNode L)

/-- The part of package jd that `object.go` calls and does not define: the hash
primitive `hash`, `hashCodes.combine`, and the methods of the `JsonNode`
interface for the variants other than `jsonObject` (`Equals`, `hashCode`,
`ident`, `diff`, `patch`; they are only ever applied to a receiver that is not
an object). -/
structure Package (L : Type) where
  hash : List UInt8 → HashCode
  combine : List HashCode → HashCode
  Equals : JsonNode L → JsonNode L → Bool
  hashCode : JsonNode L → HashCode
  ident : JsonNode L → HashCode
  diff : JsonNode L → JsonNode L → Path L → Diff L
  patch : JsonNode L → Path L → Path L → List (JsonNode L) → List (JsonNode L) → PatchResult L

/-- The type test `n.(jsonObject)`. -/
def JsonNode.isObject {L : Type} : JsonNode L → Bool
  | .object _ _ => true
  | _ => false

/-- Modelled from the spec: the helper `isVoid`, missing from the sources; Void is
the sentinel variant meaning "absent". -/
def isVoid {L : Type} : JsonNode L → Bool
  | .void => true
  | _ => false

/-- Modelled from the spec: the helper `singleValue`, missing from the sources;
"the sole element of the list, or the Void sentinel if empty". -/
def singleValue {L : Type} : List (JsonNode L) → JsonNode L
  | [] => .void
  | n :: _ => n

/-- Modelled from the spec: the variadic helper `nodeList`, missing from the
sources; `nodeList(v)` is the value list `[v]` and `nodeList()` is `[]`. -/
def nodeList {L : Type} (ns : List (JsonNode L)) : List (JsonNode L) := ns

/-- Modelled from the spec: the helper `patchErrNonSetDiff`, missing from the
sources; it fails with `NonSetDiffEntry`. -/
def patchErrNonSetDiff {L : Type} (oldValues newValues : List (JsonNode L))
    (pathBehind : Path L) : PatchResult L :=
  .error (.nonSetDiffEntry oldValues newValues pathBehind)

/-- Modelled from the spec: the helper `patchErrExpectValue`, missing from the
sources; it fails with `PatchConflict`. -/
def patchErrExpectValue {L : Type} (want found : JsonNode L) (pathBehind : Path L) :
    PatchResult L :=
  .error (.patchConflict want found pathBehind)

/-- The order of Go strings used by `sort.Strings`, lexicographic on the
characters. -/
def keyLE (a b : String) : Prop := a.data ≤ b.data

instance keyLE.decidable : DecidableRel keyLE :=
  fun a b => inferInstanceAs (Decidable (a.data ≤ b.data))

/-- The library call `sort.Strings`: the result is the sorted rearrangement of the keys. -/
def sortStrings (ks : List String) : List String := ks.insertionSort keyLE

/-- The conversion `[]byte(k)`. -/
def keyBytes (k : String) : List UInt8 := k.toUTF8.data.toList

/-- The keys of a property map, in storage order (`for k := range o.properties`). -/
def keys {α : Type} (ps : List (String × α)) : List String := ps.map Prod.fst

/-- The map update `m[k] = v`. -/
def mapSet {α : Type} : List (String × α) → String → α → List (String × α)
  | [], k, v => [(k, v)]
  | (k', v') :: rest, k, v =>
    if k' = k then (k, v) :: rest else (k', v') :: mapSet rest k v

/-- The map update `delete(m, k)`. -/
def mapDelete {α : Type} (ps : List (String × α)) (k : String) : List (String × α) :=
  ps.filter (fun p => p.1 != k)

mutual
/-- The method `jsonObject.Equals` (object.go lines 29-49); other receivers go to the package. -/
def JsonNode.Equals {L : Type} (P : Package L) : JsonNode L → JsonNode L → Bool
  | .object ps1 _, n =>
    match n with
    | .object ps2 _ =>
      if ps1.length != ps2.length then false else equalsProps P ps2 ps1
    | _ => false
  | .void, n => P.Equals .void n
  | .leaf a, n => P.Equals (.leaf a) n
/-- The loop of `Equals` over the pairs `key1, val1` of `o1.properties`. -/
def equalsProps {L : Type} (P : Package L) (ps2 : List (String × JsonNode L)) :
    List (String × JsonNode L) → Bool
  | [] => true
  | (key1, val1) :: rest =>
    match ps2.lookup key1 with
    | none => false
    | some val2 => if !(JsonNode.Equals P val1 val2) then false else equalsProps P ps2 rest
end

mutual
/-- The method `jsonObject.hashCode` (object.go lines 51-65); other receivers go to
the package.  The hash codes of the values are computed in storage order
(`hashProps`) and read back, key by key, in the order of the sorted keys; see
`hashCode_object` for the loop as it is written in the source. -/
def JsonNode.hashCode {L : Type} (P : Package L) : JsonNode L → HashCode
  | .object ps _ =>
    let valueHashes := hashProps P ps
    P.hash ((sortStrings (keys ps)).flatMap fun k =>
      (P.hash (keyBytes k)).val ++
        (match valueHashes.lookup k with
          | some valueHash => valueHash.val
          | none => []))
  | .void => P.hashCode .void
  | .leaf a => P.hashCode (.leaf a)
/-- The hash code `o.properties[k].hashCode()` of every value of the map. -/
def hashProps {L : Type} (P : Package L) : List (String × JsonNode L) → List (String × HashCode)
  | [] => []
  | (k, v) :: rest => (k, JsonNode.hashCode P v) :: hashProps P rest
end

/-- The method `jsonObject.ident` (object.go lines 69-84); other receivers go to the package. -/
def JsonNode.ident {L : Type} (P : Package L) : JsonNode L → HashCode
  | .object ps idKeys =>
    if idKeys.length = 0 then JsonNode.hashCode P (.object ps idKeys)
    else
      let hashes := idKeys.filterMap fun key => (ps.lookup key).map (JsonNode.hashCode P)
      if hashes.length = 0 then JsonNode.hashCode P (.object ps idKeys)
      else P.combine hashes
  | n => P.ident n

/-- The body of the second loop of `diff` (object.go lines 138-149) for the key `k2`
of `o2`: an insertion when `o1` misses the key. -/
def diffNewKey {L : Type} (ps1 ps2 : List (String × JsonNode L)) (path : Path L)
    (k2 : String) : Diff L :=
  match ps2.lookup k2 with
  | some v2 =>
    if (ps1.lookup k2).isSome then []
    else [{ Path := path ++ [.key k2], OldValues := nodeList [], NewValues := nodeList [v2] }]
  | none => []

mutual
/-- The method `jsonObject.diff` (object.go lines 100-151); other receivers go to
the package.  The contribution of every key of `o1` is computed in storage order
(`diffProps`) and emitted in the order of the sorted keys; see `diff_object` for
the two loops as they are written in the source. -/
def JsonNode.diff {L : Type} (P : Package L) : JsonNode L → JsonNode L → Path L → Diff L
  | .object ps1 idKeys1, n, path =>
    match n with
    | .object ps2 _ =>
      let rows := diffProps P ps2 path ps1
      ((sortStrings (keys ps1)).flatMap fun k1 => (rows.lookup k1).getD []) ++
      ((sortStrings (keys ps2)).flatMap fun k2 => diffNewKey ps1 ps2 path k2)
    | _ => [{ Path := path, OldValues := [.object ps1 idKeys1], NewValues := [n] }]
  | .void, n, path => P.diff .void n path
  | .leaf a, n, path => P.diff (.leaf a) n path
/-- The body of the first loop of `diff` for every pair `k1, v1` of `o1.properties`. -/
def diffProps {L : Type} (P : Package L) (ps2 : List (String × JsonNode L)) (path : Path L) :
    List (String × JsonNode L) → List (String × Diff L)
  | [] => []
  | (k1, v1) :: rest =>
    (k1, match ps2.lookup k1 with
      | some v2 => JsonNode.diff P v1 v2 (path ++ [.key k1])
      | none => [{ Path := path ++ [.key k1], OldValues := nodeList [v1], NewValues := nodeList [] }])
    :: diffProps P ps2 path rest
end

/-- The body of the first loop of `diff` (object.go lines 122-137) for the key `k1`
of `o1`: the diff of the two values when `o2` has the key, a deletion otherwise. -/
def diffOldKey {L : Type} (P : Package L) (ps1 ps2 : List (String × JsonNode L))
    (path : Path L) (k1 : String) : Diff L :=
  match ps1.lookup k1 with
  | some v1 =>
    (match ps2.lookup k1 with
      | some v2 => JsonNode.diff P v1 v2 (path ++ [.key k1])
      | none => [{ Path := path ++ [.key k1], OldValues := nodeList [v1], NewValues := nodeList [] }])
  | none => []

/-- The method `jsonObject.Diff` (object.go lines 96-98). -/
def JsonNode.Diff {L : Type} (P : Package L) (o n : JsonNode L) : Diff L :=
  JsonNode.diff P o n []

/-- The method `jsonObject.patch` (object.go lines 157-193); other receivers go to
the package.  The recursion is on `pathAhead`. -/
def JsonNode.patch {L : Type} (P : Package L) :
    JsonNode L → Path L → Path L → List (JsonNode L) → List (JsonNode L) → PatchResult L
  | .object ps idKeys, pathBehind, [], oldValues, newValues =>
    if oldValues.length > 1 ∨ newValues.length > 1 then
      patchErrNonSetDiff oldValues newValues pathBehind
    else
      let oldValue := singleValue oldValues
      let newValue := singleValue newValues
      if !(JsonNode.Equals P (.object ps idKeys) oldValue) then
        patchErrExpectValue oldValue (.object ps idKeys) pathBehind
      else .ok newValue
  | .object ps idKeys, pathBehind, .key pe :: rest, oldValues, newValues =>
    let nextNode := match ps.lookup pe with
      | some v => v
      | none => .void
    match JsonNode.patch P nextNode (pathBehind ++ [.key pe]) rest oldValues newValues with
    | .error err => .error err
    | .ok patchedNode =>
      if isVoid patchedNode then .ok (.object (mapDelete ps pe) idKeys)
      else .ok (.object (mapSet ps pe patchedNode) idKeys)
  | .object ps idKeys, pathBehind, _ :: _, _, _ =>
    .error (.pathTypeMismatch (.object ps idKeys) pathBehind)
  | .void, pathBehind, pathAhead, oldValues, newValues =>
    P.patch .void pathBehind pathAhead oldValues newValues
  | .leaf a, pathBehind, pathAhead, oldValues, newValues =>
    P.patch (.leaf a) pathBehind pathAhead oldValues newValues

/-- Modelled from the spec: the function `patchAll`, missing from the sources;
"apply each DiffElement's patch in turn, threading the possibly-new root Node
forward", every element starting with nothing consumed of its path. -/
def patchAll {L : Type} (P : Package L) (n : JsonNode L) : Diff L → PatchResult L
  | [] => .ok n
  | de :: rest =>
    match JsonNode.patch P n [] de.Path de.OldValues de.NewValues with
    | .error err => .error err
    | .ok n' => patchAll P n' rest

/-- The method `jsonObject.Patch` (object.go lines 153-155). -/
def JsonNode.Patch {L : Type} (P : Package L) (o : JsonNode L) (d : Jd.Diff L) : PatchResult L :=
  patchAll P o d

/-- Modelled from the spec: `equals` of the Void and scalar variants, missing from
the sources; "deep structural equality; must return false (never error) when
`other` is a different variant". -/
def scalarEquals {L : Type} [DecidableEq L] : JsonNode L → JsonNode L → Bool
  | .void, .void => true
  | .leaf a, .leaf b => decide (a = b)
  | _, _ => false

/-- Modelled from the spec: `diff` of the Void and scalar variants, missing from
the sources; nothing for equal values, and otherwise one element at the path with
the old value and the new value ("a plain value change", and "whole-value
replacement" against a different variant). -/
def scalarDiff {L : Type} [DecidableEq L] (n m : JsonNode L) (path : Path L) : Diff L :=
  if scalarEquals n m then []
  else [{ Path := path, OldValues := nodeList [n], NewValues := nodeList [m] }]

/-- Modelled from the spec: `patch` of the Void and scalar variants, missing from
the sources; such a value has nothing to descend into (`PathTypeMismatch`), and at
the end of the path it follows the arity check and the base case of section 4.4. -/
def scalarPatch {L : Type} [DecidableEq L] (n : JsonNode L) (pathBehind pathAhead : Path L)
    (oldValues newValues : List (JsonNode L)) : PatchResult L :=
  match pathAhead with
  | _ :: _ => .error (.pathTypeMismatch n pathBehind)
  | [] =>
    if oldValues.length > 1 ∨ newValues.length > 1 then
      patchErrNonSetDiff oldValues newValues pathBehind
    else if !(scalarEquals n (singleValue oldValues)) then
      patchErrExpectValue (singleValue oldValues) n pathBehind
    else .ok (singleValue newValues)

/-- Modelled from the spec: the rest of the package for documents made of objects
and scalars, missing from the sources.  The hash primitive, the combination of
hash codes and the hash codes of scalars and of Void stay open; the identity of a
variant without configurable identity is its content hash. -/
def scalarPackage {L : Type} [DecidableEq L] (hash : List UInt8 → HashCode)
    (combine : List HashCode → HashCode) (leafHash : L → HashCode) (voidHash : HashCode) :
    Package L where
  hash := hash
  combine := combine
  Equals := scalarEquals
  hashCode := fun n => match n with
    | .leaf a => leafHash a
    | _ => voidHash
  ident := fun n => match n with
    | .leaf a => leafHash a
    | _ => voidHash
  diff := scalarDiff
  patch := scalarPatch

mutual
/-- The property lists of the tree are maps: at every object the keys are distinct. -/
def JsonNode.distinctKeys {L : Type} : JsonNode L → Bool
  | .object ps _ => decide (keys ps).Nodup && distinctKeysProps ps
  | _ => true
/-- Every value of the list has distinct keys at every object. -/
def distinctKeysProps {L : Type} : List (String × JsonNode L) → Bool
  | [] => true
  | (_, v) :: rest => JsonNode.distinctKeys v && distinctKeysProps rest
end

mutual
/-- The invariant of the data model: no value of a `properties` map is Void, at
every object of the tree. -/
def JsonNode.noVoidValues {L : Type} : JsonNode L → Bool
  | .object ps _ => noVoidValuesProps ps
  | _ => true
/-- No value of the list is Void, nor holds a Void value. -/
def noVoidValuesProps {L : Type} : List (String × JsonNode L) → Bool
  | [] => true
  | (_, v) :: rest => !isVoid v && JsonNode.noVoidValues v && noVoidValuesProps rest
end

/-- The key that extends the path `p` in the path of a diff element: the element
of `e.Path` right after the first `p.length` ones, when it is a string key. -/
def levelKey {L : Type} (p : Path L) (e : DiffElement L) : Option String :=
  match e.Path.drop p.length with
  | .key k :: _ => some k
  | _ => none

/-- A fixed hash primitive for examples: the first eight bytes, padded with zeros. -/
def exampleHash (bs : List UInt8) : HashCode :=
  ⟨(bs ++ List.replicate 8 0).take 8, by simp⟩

/-- A fixed combination of hash codes for examples: the hash of their concatenation. -/
def exampleCombine (hs : List HashCode) : HashCode :=
  exampleHash (hs.flatMap fun h => h.val)

/-- A package for examples: numbers are the scalars. -/
def examplePackage : Package Nat :=
  scalarPackage exampleHash exampleCombine (fun n => exampleHash [UInt8.ofNat n]) (exampleHash [])

/-- The value `o.properties[pe]` that `patch` descends into, or Void when the key
is absent (object.go lines 177-180). -/
def nextNode {L : Type} (ps : List (String × JsonNode L)) (pe : String) : JsonNode L :=
  match ps.lookup pe with
  | some v => v
  | none => .void

/-- The update of `o.properties` at the end of `patch` (object.go lines 185-191):
the key is deleted when the patched value is Void, and set to it otherwise. -/
def mapPut {L : Type} (ps : List (String × JsonNode L)) (pe : String)
    (patchedNode : JsonNode L) : List (String × JsonNode L) :=
  if isVoid patchedNode then mapDelete ps pe else mapSet ps pe patchedNode

/-- The fold of `patchAll` seen from a node below the root: the elements of the diff
are applied in turn to `n`, each along what is left of its path after the first
`d` steps, with `pathBehind` for the steps consumed.  `patchAll` is the case
`d = 0`, `pathBehind = []`. -/
def patchFrom {L : Type} (P : Package L) (d : Nat) (pathBehind : Path L) (n : JsonNode L) :
    Diff L → PatchResult L
  | [] => .ok n
  | de :: rest =>
    match JsonNode.patch P n pathBehind (de.Path.drop d) de.OldValues de.NewValues with
    | .error err => .error err
    | .ok n' => patchFrom P d pathBehind n' rest

/-- The target of a round trip at one key: the patched map has no value at the key
when the new map has none, and a value that `Equals` the new one otherwise. -/
def keyDone {L : Type} (P : Package L) (ps2 : List (String × JsonNode L)) (k : String)
    (found : Option (JsonNode L)) : Prop :=
  match ps2.lookup k with
  | none => found = none
  | some v2 => ∃ c, found = some c ∧ JsonNode.Equals P c v2 = true

/-- The loop of `pathIdent` (object.go lines 88-92) over the remaining `idKeys`, with
the map `id` built so far. -/
def pathIdentLoop {L : Type} (ps : List (String × JsonNode L)) :
    List String → List (String × JsonNode L) → List (String × JsonNode L)
  | [], id => id
  | key :: rest, id =>
    match ps.lookup key with
    | some value => pathIdentLoop ps rest (mapSet id key value)
    | none => pathIdentLoop ps rest id

/-- The method `jsonObject.pathIdent` (object.go lines 86-94) of the object with the
given `properties` and `idKeys`. -/
def pathIdent {L : Type} (properties : List (String × JsonNode L)) (idKeys : List String) :
    PathElement L :=
  .ident (pathIdentLoop properties idKeys [])

/-- The method `jsonObject.patch` (object.go lines 157-193) with its effect on the
receiver made explicit.  The second component is the returned pair; the first is the
receiver as its holder sees it after the call.  The map of an object is shared by
all its holders, so what a call does to the value at `pe` shows in `o.properties`,
and the only writes of `patch` itself are the `delete` and the assignment of lines
187 and 190.  The values of the other variants are immutable values here. -/
def JsonNode.patchInPlace {L : Type} (P : Package L) :
    JsonNode L → Path L → Path L → List (JsonNode L) → List (JsonNode L) →
      JsonNode L × PatchResult L
  | .object ps idKeys, pathBehind, [], oldValues, newValues =>
    (.object ps idKeys,
      if oldValues.length > 1 ∨ newValues.length > 1 then
        patchErrNonSetDiff oldValues newValues pathBehind
      else if !(JsonNode.Equals P (.object ps idKeys) (singleValue oldValues)) then
        patchErrExpectValue (singleValue oldValues) (.object ps idKeys) pathBehind
      else .ok (singleValue newValues))
  | .object ps idKeys, pathBehind, .key pe :: rest, oldValues, newValues =>
    let child := JsonNode.patchInPlace P (nextNode ps pe) (pathBehind ++ [.key pe]) rest
      oldValues newValues
    let seen := match ps.lookup pe with
      | some _ => mapSet ps pe child.1
      | none => ps
    match child.2 with
    | .error err => (.object seen idKeys, .error err)
    | .ok patchedNode =>
      (.object (mapPut ps pe patchedNode) idKeys, .ok (.object (mapPut ps pe patchedNode) idKeys))
  | .object ps idKeys, pathBehind, _ :: _, _, _ =>
    (.object ps idKeys, .error (.pathTypeMismatch (.object ps idKeys) pathBehind))
  | .void, pathBehind, pathAhead, oldValues, newValues =>
    (.void, P.patch .void pathBehind pathAhead oldValues newValues)
  | .leaf a, pathBehind, pathAhead, oldValues, newValues =>
    (.leaf a, P.patch (.leaf a) pathBehind pathAhead oldValues newValues)

/-! ## Induction over document trees -/

/-- Induction over a tree: a property holds of every node when it holds of Void, of
every leaf, and of every object whose values all have it. -/
theorem JsonNode.induct {L : Type} {motive : JsonNode L → Prop}
    (object : ∀ ps idKeys, (∀ k v, (k, v) ∈ ps → motive v) → motive (.object ps idKeys))
    (void : motive .void) (leaf : ∀ a, motive (.leaf a)) (n : JsonNode L) : motive n :=
  @JsonNode.rec L motive
    (fun l => ∀ k v, (k, v) ∈ l → motive v)
    (fun kv => motive kv.2)
    (fun ps idKeys ih => object ps idKeys ih) void leaf
    (fun _ _ h => absurd h (List.not_mem_nil _))
    (fun head tail ihHead ihTail k v h => by
      rcases List.mem_cons.1 h with h | h
      · subst h; exact ihHead
      · exact ihTail k v h)
    (fun _ _ ih => ih) n

/-! ## Maps as association lists -/

theorem lookup_mem {α : Type} {k : String} {v : α} :
    ∀ {ps : List (String × α)}, ps.lookup k = some v → (k, v) ∈ ps
  | [], h => by simp at h
  | (k', v') :: rest, h => by
    by_cases hk : k = k'
    · subst hk
      simp [List.lookup_cons] at h
      subst h
      exact List.mem_cons_self _ _
    · have hne : (k == k') = false := by simpa using hk
      rw [List.lookup_cons, hne] at h
      exact List.mem_cons_of_mem _ (lookup_mem h)

theorem lookup_isSome_iff {α : Type} {k : String} :
    ∀ {ps : List (String × α)}, (ps.lookup k).isSome = true ↔ k ∈ keys ps
  | [] => by simp [keys]
  | (k', v') :: rest => by
    by_cases hk : k = k'
    · subst hk
      simp [List.lookup_cons, keys]
    · have hne : (k == k') = false := by simpa using hk
      have ih := @lookup_isSome_iff α k rest
      simp only [keys] at ih
      simp [List.lookup_cons, hne, keys, hk, ih]

theorem lookup_eq_none_iff {α : Type} {k : String} {ps : List (String × α)} :
    ps.lookup k = none ↔ k ∉ keys ps := by
  rw [← lookup_isSome_iff]
  cases ps.lookup k <;> simp

theorem lookup_of_mem {α : Type} {k : String} {v : α} :
    ∀ {ps : List (String × α)}, (keys ps).Nodup → (k, v) ∈ ps → ps.lookup k = some v
  | [], _, h => by simp at h
  | (k', v') :: rest, hnd, h => by
    have hnd' : k' ∉ keys rest ∧ (keys rest).Nodup := by simpa [keys] using hnd
    rcases List.mem_cons.1 h with h | h
    · cases h
      simp [List.lookup_cons]
    · have hk : k ∈ keys rest := List.mem_map.2 ⟨(k, v), h, rfl⟩
      have hne : (k == k') = false := by
        have : k ≠ k' := fun e => hnd'.1 (e ▸ hk)
        simpa using this
      rw [List.lookup_cons, hne]
      exact lookup_of_mem hnd'.2 h

theorem lookup_cons_eq {α : Type} (k x : String) (v : α) (ps : List (String × α)) :
    ((k, v) :: ps).lookup x = if x = k then some v else ps.lookup x := by
  by_cases hx : x = k
  · subst hx; simp [List.lookup_cons]
  · have hne : (x == k) = false := by simpa using hx
    rw [List.lookup_cons, hne, if_neg hx]

theorem mem_keys_of_mem {α : Type} {k : String} {v : α} {ps : List (String × α)}
    (h : (k, v) ∈ ps) : k ∈ keys ps :=
  List.mem_map.2 ⟨(k, v), h, rfl⟩

theorem lookup_perm {α : Type} {ps1 ps2 : List (String × α)} (hp : ps1.Perm ps2)
    (hnd : (keys ps1).Nodup) (k : String) : ps1.lookup k = ps2.lookup k := by
  have hnd2 : (keys ps2).Nodup := (hp.map Prod.fst).nodup_iff.1 hnd
  cases h1 : ps1.lookup k with
  | some v => exact (lookup_of_mem hnd2 (hp.subset (lookup_mem h1))).symm
  | none =>
    have hk : k ∉ keys ps2 := fun hk =>
      (lookup_eq_none_iff.1 h1) ((hp.map Prod.fst).symm.subset hk)
    exact (lookup_eq_none_iff.2 hk).symm

/-! ## Sorting the keys -/

theorem keyLE_iff (a b : String) : keyLE a b ↔ a ≤ b := String.le_iff_toList_le.symm

theorem keyLE_total : IsTotal String keyLE :=
  ⟨fun a b => by simp only [keyLE_iff]; exact le_total a b⟩

theorem keyLE_trans : IsTrans String keyLE :=
  ⟨fun a b c => by simp only [keyLE_iff]; exact le_trans⟩

theorem keyLE_antisymm : IsAntisymm String keyLE :=
  ⟨fun a b => by simp only [keyLE_iff]; exact le_antisymm⟩

theorem sortStrings_perm (ks : List String) : (sortStrings ks).Perm ks :=
  List.perm_insertionSort keyLE ks

theorem sortStrings_sorted (ks : List String) : (sortStrings ks).Sorted keyLE :=
  haveI := keyLE_total
  haveI := keyLE_trans
  List.sorted_insertionSort keyLE ks

theorem mem_sortStrings {k : String} {ks : List String} : k ∈ sortStrings ks ↔ k ∈ ks :=
  (sortStrings_perm ks).mem_iff

/-- Sorting forgets the order in which the keys were stored. -/
theorem sortStrings_eq_of_perm {ks1 ks2 : List String} (h : ks1.Perm ks2) :
    sortStrings ks1 = sortStrings ks2 :=
  haveI := keyLE_antisymm
  List.eq_of_perm_of_sorted
    (((sortStrings_perm ks1).trans h).trans (sortStrings_perm ks2).symm)
    (sortStrings_sorted ks1) (sortStrings_sorted ks2)

/-! ## The loops of `object.go` as they are written in the source -/

theorem equalsProps_iff {L : Type} (P : Package L) (ps2 : List (String × JsonNode L)) :
    ∀ ps1 : List (String × JsonNode L), equalsProps P ps2 ps1 = true ↔
      ∀ k v1, (k, v1) ∈ ps1 → ∃ v2, ps2.lookup k = some v2 ∧ JsonNode.Equals P v1 v2 = true
  | [] => by simp [equalsProps]
  | (k1, v1) :: rest => by
    have ih := equalsProps_iff P ps2 rest
    cases h2 : ps2.lookup k1 with
    | none =>
      simp only [equalsProps, h2]
      constructor
      · intro h; cases h
      · intro h
        obtain ⟨v2, hv2, _⟩ := h k1 v1 (List.mem_cons_self _ _)
        rw [h2] at hv2; cases hv2
    | some v2 =>
      simp only [equalsProps, h2]
      cases he : JsonNode.Equals P v1 v2 with
      | false =>
        simp only [Bool.not_false, if_true]
        constructor
        · intro h; cases h
        · intro h
          obtain ⟨v2', hv2, hEq⟩ := h k1 v1 (List.mem_cons_self _ _)
          rw [h2] at hv2; cases hv2
          rw [he] at hEq; cases hEq
      | true =>
        simp only [Bool.not_true, Bool.false_eq_true, if_false, ih]
        constructor
        · intro h k v hm
          rcases List.mem_cons.1 hm with hm | hm
          · cases hm; exact ⟨v2, h2, he⟩
          · exact h k v hm
        · intro h k v hm
          exact h k v (List.mem_cons_of_mem _ hm)

/-- The method `Equals` on two objects: the maps have the same size, and every
key of the first is a key of the second, with values that are `Equals`. -/
theorem Equals_object {L : Type} (P : Package L) (ps1 ps2 : List (String × JsonNode L))
    (ids1 ids2 : List String) :
    JsonNode.Equals P (.object ps1 ids1) (.object ps2 ids2) = true ↔
      ps1.length = ps2.length ∧
      ∀ k v1, (k, v1) ∈ ps1 → ∃ v2, ps2.lookup k = some v2 ∧ JsonNode.Equals P v1 v2 = true := by
  rw [JsonNode.Equals]
  by_cases hlen : ps1.length = ps2.length
  · simp [hlen, equalsProps_iff]
  · simp [hlen]

theorem hashProps_lookup {L : Type} (P : Package L) (k : String) :
    ∀ ps : List (String × JsonNode L),
      (hashProps P ps).lookup k = (ps.lookup k).map (JsonNode.hashCode P)
  | [] => by simp [hashProps]
  | (k', v') :: rest => by
    have ih := hashProps_lookup P k rest
    by_cases hk : k = k'
    · subst hk; simp [hashProps, List.lookup_cons]
    · have hne : (k == k') = false := by simpa using hk
      simp [hashProps, List.lookup_cons, hne, ih]

/-- The loop of `hashCode` as written in the source: for every key `k` in sorted
order, the hash of the key followed by `o.properties[k].hashCode()`. -/
theorem hashCode_object {L : Type} (P : Package L) (ps : List (String × JsonNode L))
    (idKeys : List String) :
    JsonNode.hashCode P (.object ps idKeys) =
      P.hash ((sortStrings (keys ps)).flatMap fun k =>
        (P.hash (keyBytes k)).val ++
          (match ps.lookup k with
            | some v => (JsonNode.hashCode P v).val
            | none => [])) := by
  rw [JsonNode.hashCode]
  congr 2
  funext k
  rw [hashProps_lookup]
  cases ps.lookup k <;> rfl

theorem diffProps_lookup {L : Type} (P : Package L) (ps2 : List (String × JsonNode L))
    (path : Path L) (k : String) :
    ∀ ps1 : List (String × JsonNode L),
      ((diffProps P ps2 path ps1).lookup k).getD [] = diffOldKey P ps1 ps2 path k
  | [] => by simp [diffProps, diffOldKey]
  | (k', v') :: rest => by
    have ih := diffProps_lookup P ps2 path k rest
    by_cases hk : k = k'
    · subst hk; simp [diffProps, diffOldKey, List.lookup_cons]
    · have hne : (k == k') = false := by simpa using hk
      simp only [diffProps, List.lookup_cons, hne, ih, diffOldKey]

/-- The two loops of `diff` as written in the source: the keys of `o1` in sorted
order (`diffOldKey`), then the keys of `o2` in sorted order (`diffNewKey`). -/
theorem diff_object {L : Type} (P : Package L) (ps1 ps2 : List (String × JsonNode L))
    (ids1 ids2 : List String) (path : Path L) :
    JsonNode.diff P (.object ps1 ids1) (.object ps2 ids2) path =
      ((sortStrings (keys ps1)).flatMap fun k1 => diffOldKey P ps1 ps2 path k1) ++
      ((sortStrings (keys ps2)).flatMap fun k2 => diffNewKey ps1 ps2 path k2) := by
  rw [JsonNode.diff]
  simp only [diffProps_lookup]

/-- A receiver that is not an object goes to the package. -/
theorem diff_of_not_object {L : Type} (P : Package L) {n : JsonNode L} (m : JsonNode L)
    (path : Path L) (h : n.isObject = false) : JsonNode.diff P n m path = P.diff n m path := by
  cases n with
  | object ps ids => simp [JsonNode.isObject] at h
  | void => rw [JsonNode.diff]
  | leaf a => rw [JsonNode.diff]

/-! ## Well-formed trees -/

theorem distinctKeysProps_iff {L : Type} :
    ∀ ps : List (String × JsonNode L), distinctKeysProps ps = true ↔
      ∀ k v, (k, v) ∈ ps → JsonNode.distinctKeys v = true
  | [] => by simp [distinctKeysProps]
  | (k', v') :: rest => by
    have ih := distinctKeysProps_iff rest
    simp only [distinctKeysProps, Bool.and_eq_true, ih]
    constructor
    · rintro ⟨h1, h2⟩ k v hm
      rcases List.mem_cons.1 hm with hm | hm
      · cases hm; exact h1
      · exact h2 k v hm
    · intro h
      exact ⟨h k' v' (List.mem_cons_self _ _), fun k v hm => h k v (List.mem_cons_of_mem _ hm)⟩

theorem distinctKeys_object {L : Type} (ps : List (String × JsonNode L)) (idKeys : List String) :
    JsonNode.distinctKeys (.object ps idKeys) = true ↔
      (keys ps).Nodup ∧ ∀ k v, (k, v) ∈ ps → JsonNode.distinctKeys v = true := by
  rw [JsonNode.distinctKeys]
  simp [distinctKeysProps_iff]

theorem noVoidValuesProps_iff {L : Type} :
    ∀ ps : List (String × JsonNode L), noVoidValuesProps ps = true ↔
      ∀ k v, (k, v) ∈ ps → isVoid v = false ∧ JsonNode.noVoidValues v = true
  | [] => by simp [noVoidValuesProps]
  | (k', v') :: rest => by
    have ih := noVoidValuesProps_iff rest
    simp only [noVoidValuesProps, Bool.and_eq_true, ih, Bool.not_eq_true']
    constructor
    · rintro ⟨⟨h0, h1⟩, h2⟩ k v hm
      rcases List.mem_cons.1 hm with hm | hm
      · cases hm; exact ⟨h0, h1⟩
      · exact h2 k v hm
    · intro h
      exact ⟨h k' v' (List.mem_cons_self _ _), fun k v hm => h k v (List.mem_cons_of_mem _ hm)⟩

theorem noVoidValues_object {L : Type} (ps : List (String × JsonNode L)) (idKeys : List String) :
    JsonNode.noVoidValues (.object ps idKeys) = true ↔
      ∀ k v, (k, v) ∈ ps → isVoid v = false ∧ JsonNode.noVoidValues v = true := by
  rw [JsonNode.noVoidValues]
  exact noVoidValuesProps_iff ps

/-! ## Lists -/

theorem flatMap_eq_nil_of_forall {α β : Type} {l : List α} {f : α → List β}
    (h : ∀ x ∈ l, f x = []) : l.flatMap f = [] := by
  induction l with
  | nil => rfl
  | cons x xs ih =>
    rw [List.flatMap_cons, h x (List.mem_cons_self _ _), List.nil_append]
    exact ih fun y hy => h y (List.mem_cons_of_mem _ hy)

theorem flatMap_congr_of_forall {α β : Type} {l : List α} {f g : α → List β}
    (h : ∀ x ∈ l, f x = g x) : l.flatMap f = l.flatMap g := by
  induction l with
  | nil => rfl
  | cons x xs ih =>
    rw [List.flatMap_cons, List.flatMap_cons, h x (List.mem_cons_self _ _)]
    rw [ih fun y hy => h y (List.mem_cons_of_mem _ hy)]

/-- Only one element of a duplicate-free list contributes: the result is its contribution. -/
theorem flatMap_eq_single {α β : Type} {l : List α} {f : α → List β} {a : α}
    (hnd : l.Nodup) (ha : a ∈ l) (h : ∀ x ∈ l, x ≠ a → f x = []) : l.flatMap f = f a := by
  induction l with
  | nil => cases ha
  | cons x xs ih =>
    have hnd' : x ∉ xs ∧ xs.Nodup := List.nodup_cons.1 hnd
    rw [List.flatMap_cons]
    rcases List.mem_cons.1 ha with hax | hax
    · subst hax
      rw [flatMap_eq_nil_of_forall, List.append_nil]
      intro y hy
      exact h y (List.mem_cons_of_mem _ hy) (fun e => hnd'.1 (e ▸ hy))
    · have hx : x ≠ a := fun e => hnd'.1 (e ▸ hax)
      rw [h x (List.mem_cons_self _ _) hx, List.nil_append]
      exact ih hnd'.2 hax fun y hy => h y (List.mem_cons_of_mem _ hy)

/-! ## Reflexivity of diff -/

theorem diff_self {L : Type} (P : Package L)
    (hP : ∀ (n : JsonNode L) (p : Path L), n.isObject = false → JsonNode.diff P n n p = [])
    (n : JsonNode L) : ∀ p : Path L, JsonNode.diff P n n p = [] := by
  induction n using JsonNode.induct with
  | object ps idKeys ih =>
    intro p
    rw [diff_object]
    have h1 : ((sortStrings (keys ps)).flatMap fun k1 => diffOldKey P ps ps p k1) = [] := by
      apply flatMap_eq_nil_of_forall
      intro k _
      simp only [diffOldKey]
      cases hl : ps.lookup k with
      | none => rfl
      | some v => exact ih k v (lookup_mem hl) _
    have h2 : ((sortStrings (keys ps)).flatMap fun k2 => diffNewKey ps ps p k2) = [] := by
      apply flatMap_eq_nil_of_forall
      intro k _
      simp only [diffNewKey]
      cases hl : ps.lookup k with
      | none => rfl
      | some v => simp
    rw [h1, h2]; rfl
  | void => intro p; exact hP _ p rfl
  | leaf a => intro p; exact hP _ p rfl

theorem scalarEquals_self {L : Type} [DecidableEq L] {n : JsonNode L} (h : n.isObject = false) :
    scalarEquals n n = true := by
  cases n with
  | object ps ids => simp [JsonNode.isObject] at h
  | void => rfl
  | leaf a => simp [scalarEquals]

theorem scalarPackage_diff_self {L : Type} [DecidableEq L] (hash : List UInt8 → HashCode)
    (combine : List HashCode → HashCode) (leafHash : L → HashCode) (voidHash : HashCode)
    (n : JsonNode L) (p : Path L) (h : n.isObject = false) :
    JsonNode.diff (scalarPackage hash combine leafHash voidHash) n n p = [] := by
  rw [diff_of_not_object _ _ _ h]
  simp [scalarPackage, scalarDiff, scalarEquals_self h]

/-- C2. Reflexivity: when the diff of every variant other than the object is
reflexive, the diff of an object with itself is the empty Diff, at every path. -/
theorem C2_diff_reflexive {L : Type} (P : Package L)
    (hP : ∀ (n : JsonNode L) (p : Path L), n.isObject = false → JsonNode.diff P n n p = [])
    (ps : List (String × JsonNode L)) (idKeys : List String) (p : Path L) :
    JsonNode.diff P (.object ps idKeys) (.object ps idKeys) p = [] :=
  diff_self P hP _ p

/-- C2 at `diff({}, {})` and at a nested object with scalar values. -/
theorem C2_diff_reflexive_witness :
    JsonNode.diff examplePackage (.object [] []) (.object [] []) [] = [] ∧
    JsonNode.diff examplePackage (.object [("x", .leaf 1), ("o", .object [("y", .leaf 2)] [])] [])
      (.object [("x", .leaf 1), ("o", .object [("y", .leaf 2)] [])] []) [.key "r"] = [] :=
  ⟨C2_diff_reflexive examplePackage (scalarPackage_diff_self _ _ _ _) [] [] [],
   C2_diff_reflexive examplePackage (scalarPackage_diff_self _ _ _ _) _ _ _⟩

/-! ## Hash codes -/

/-- Equal objects have the same keys, up to the order of storage. -/
theorem keys_perm_of_Equals {L : Type} (P : Package L) {ps1 ps2 : List (String × JsonNode L)}
    {ids1 ids2 : List String} (hnd : (keys ps1).Nodup)
    (hEq : JsonNode.Equals P (.object ps1 ids1) (.object ps2 ids2) = true) :
    (keys ps1).Perm (keys ps2) := by
  obtain ⟨hlen, hall⟩ := (Equals_object P ps1 ps2 ids1 ids2).1 hEq
  have hsub : keys ps1 ⊆ keys ps2 := by
    intro k hk
    obtain ⟨⟨k', v1⟩, hm, rfl⟩ := List.mem_map.1 hk
    obtain ⟨v2, hv2, _⟩ := hall k' v1 hm
    exact mem_keys_of_mem (lookup_mem hv2)
  apply (List.subperm_of_subset hnd hsub).perm_of_length_le
  simp [keys, hlen]

theorem hashCode_eq_of_Equals {L : Type} (P : Package L)
    (hP : ∀ n m : JsonNode L, n.isObject = false → JsonNode.Equals P n m = true →
      JsonNode.hashCode P n = JsonNode.hashCode P m)
    (a : JsonNode L) : ∀ b : JsonNode L, a.distinctKeys = true →
      JsonNode.Equals P a b = true → JsonNode.hashCode P a = JsonNode.hashCode P b := by
  induction a using JsonNode.induct with
  | object ps1 ids1 ih =>
    intro b hwf hEq
    cases b with
    | void => simp [JsonNode.Equals] at hEq
    | leaf x => simp [JsonNode.Equals] at hEq
    | object ps2 ids2 =>
      obtain ⟨hnd, hwfc⟩ := (distinctKeys_object ps1 ids1).1 hwf
      obtain ⟨_, hall⟩ := (Equals_object P ps1 ps2 ids1 ids2).1 hEq
      rw [hashCode_object, hashCode_object,
        ← sortStrings_eq_of_perm (keys_perm_of_Equals P hnd hEq)]
      congr 1
      apply flatMap_congr_of_forall
      intro k hk
      have hk1 : k ∈ keys ps1 := mem_sortStrings.1 hk
      cases h1 : ps1.lookup k with
      | none => exact absurd hk1 (lookup_eq_none_iff.1 h1)
      | some v1 =>
        obtain ⟨v2, hv2, hE⟩ := hall k v1 (lookup_mem h1)
        rw [hv2]
        simp only
        rw [ih k v1 (lookup_mem h1) v2 (hwfc k v1 (lookup_mem h1)) hE]
  | void => intro b _ hEq; exact hP _ b rfl hEq
  | leaf x => intro b _ hEq; exact hP _ b rfl hEq

theorem scalarPackage_hashCode_of_Equals {L : Type} [DecidableEq L]
    (hash : List UInt8 → HashCode) (combine : List HashCode → HashCode)
    (leafHash : L → HashCode) (voidHash : HashCode) (n m : JsonNode L)
    (h : n.isObject = false)
    (hEq : JsonNode.Equals (scalarPackage hash combine leafHash voidHash) n m = true) :
    JsonNode.hashCode (scalarPackage hash combine leafHash voidHash) n =
      JsonNode.hashCode (scalarPackage hash combine leafHash voidHash) m := by
  cases n with
  | object ps ids => simp [JsonNode.isObject] at h
  | void =>
    cases m <;> simp [JsonNode.Equals, scalarPackage, scalarEquals] at hEq
    rfl
  | leaf x =>
    cases m <;> simp [JsonNode.Equals, scalarPackage, scalarEquals] at hEq
    subst hEq; rfl

/-- C3. Hash consistency: when every variant other than the object gives equal
values the same hash code, two objects that are `Equals` have the same
`hashCode` (the first being a map at every level: distinct keys). -/
theorem C3_hash_consistency {L : Type} (P : Package L)
    (hP : ∀ n m : JsonNode L, n.isObject = false → JsonNode.Equals P n m = true →
      JsonNode.hashCode P n = JsonNode.hashCode P m)
    (ps1 ps2 : List (String × JsonNode L)) (ids1 ids2 : List String)
    (hwf : JsonNode.distinctKeys (.object ps1 ids1) = true)
    (hEq : JsonNode.Equals P (.object ps1 ids1) (.object ps2 ids2) = true) :
    JsonNode.hashCode P (.object ps1 ids1) = JsonNode.hashCode P (.object ps2 ids2) :=
  hashCode_eq_of_Equals P hP _ _ hwf hEq

/-- C3 at `{"a":1,"b":{"c":2}}` and the same object stored as `{"b":{"c":2},"a":1}`. -/
theorem C3_hash_consistency_witness :
    JsonNode.Equals examplePackage
      (.object [("a", .leaf 1), ("b", .object [("c", .leaf 2)] [])] [])
      (.object [("b", .object [("c", .leaf 2)] ["c"]), ("a", .leaf 1)] []) = true ∧
    JsonNode.hashCode examplePackage
      (.object [("a", .leaf 1), ("b", .object [("c", .leaf 2)] [])] []) =
    JsonNode.hashCode examplePackage
      (.object [("b", .object [("c", .leaf 2)] ["c"]), ("a", .leaf 1)] []) :=
  ⟨by decide,
   C3_hash_consistency examplePackage (scalarPackage_hashCode_of_Equals _ _ _ _)
    _ _ _ _ (by decide) (by decide)⟩

/-- C4. Key order independence: two objects whose property maps hold the same
pairs (distinct keys) in different storage orders have the same `hashCode`. -/
theorem C4_hash_key_order_independent {L : Type} (P : Package L)
    (ps1 ps2 : List (String × JsonNode L)) (ids1 ids2 : List String)
    (hnd : (keys ps1).Nodup) (hperm : ps1.Perm ps2) :
    JsonNode.hashCode P (.object ps1 ids1) = JsonNode.hashCode P (.object ps2 ids2) := by
  have hkeys : sortStrings (keys ps1) = sortStrings (keys ps2) :=
    sortStrings_eq_of_perm (hperm.map Prod.fst)
  rw [hashCode_object, hashCode_object, hkeys]
  congr 1
  apply flatMap_congr_of_forall
  intro k _
  rw [lookup_perm hperm hnd k]

/-- C4 at `{"a":1,"b":2,"c":3}` stored in the order `c, a, b`. -/
theorem C4_hash_key_order_independent_witness :
    JsonNode.hashCode examplePackage
      (.object [("a", .leaf 1), ("b", .leaf 2), ("c", .leaf 3)] []) =
    JsonNode.hashCode examplePackage
      (.object [("c", .leaf 3), ("a", .leaf 1), ("b", .leaf 2)] []) :=
  C4_hash_key_order_independent examplePackage _ _ _ _ (by decide)
    (@List.perm_append_comm (String × JsonNode Nat)
      [("a", JsonNode.leaf 1), ("b", JsonNode.leaf 2)] [("c", JsonNode.leaf 3)])

/-! ## The identity of an object -/

/-- C5. Identity fallback: when `idKeys` is empty, or when none of the keys it
names is a property of the object, `ident` is `hashCode`. -/
theorem C5_ident_fallback {L : Type} (P : Package L) (ps : List (String × JsonNode L))
    (idKeys : List String) (h : idKeys = [] ∨ ∀ k ∈ idKeys, k ∉ keys ps) :
    JsonNode.ident P (.object ps idKeys) = JsonNode.hashCode P (.object ps idKeys) := by
  rw [JsonNode.ident]
  rcases h with h | h
  · simp [h]
  · have hnone : (idKeys.filterMap fun key => (ps.lookup key).map (JsonNode.hashCode P)) = [] := by
      rw [List.filterMap_eq_nil_iff]
      intro k hk
      rw [lookup_eq_none_iff.2 (h k hk)]
      rfl
    simp only [hnone, List.length_nil, if_true]
    split <;> rfl

/-- C5 at `{"name":"Bob"}` (the scalar 7) with `idKeys = ["id"]`, none of which is present. -/
theorem C5_ident_fallback_witness :
    JsonNode.ident examplePackage (.object [("name", .leaf 7)] ["id"]) =
      JsonNode.hashCode examplePackage (.object [("name", .leaf 7)] ["id"]) :=
  C5_ident_fallback examplePackage _ _ (Or.inr (by decide))

/-- C6. Identity ignores the fields that are not identity keys: two objects with
the same non-empty `idKeys`, of which one at least is a property of the first, and
such that every identity key is absent from both or present in both with values of
equal `hashCode`, have the same `ident`, whatever their other properties. -/
theorem C6_ident_ignores_other_fields {L : Type} (P : Package L)
    (ps1 ps2 : List (String × JsonNode L)) (idKeys : List String)
    (hne : idKeys ≠ [])
    (hpresent : ∃ k ∈ idKeys, k ∈ keys ps1)
    (hsame : ∀ k ∈ idKeys,
      (ps1.lookup k).map (JsonNode.hashCode P) = (ps2.lookup k).map (JsonNode.hashCode P)) :
    JsonNode.ident P (.object ps1 idKeys) = JsonNode.ident P (.object ps2 idKeys) := by
  have hlist : (idKeys.filterMap fun key => (ps1.lookup key).map (JsonNode.hashCode P)) =
      (idKeys.filterMap fun key => (ps2.lookup key).map (JsonNode.hashCode P)) :=
    List.filterMap_congr hsame
  have hpos : (idKeys.filterMap fun key => (ps2.lookup key).map (JsonNode.hashCode P)).length
      ≠ 0 := by
    rw [← hlist]
    obtain ⟨k, hk, hk1⟩ := hpresent
    cases h1 : ps1.lookup k with
    | none => exact absurd hk1 (lookup_eq_none_iff.1 h1)
    | some v =>
      have hm : JsonNode.hashCode P v ∈
          idKeys.filterMap fun key => (ps1.lookup key).map (JsonNode.hashCode P) :=
        List.mem_filterMap.2 ⟨k, hk, by rw [h1]; rfl⟩
      intro h0
      rw [List.length_eq_zero] at h0
      rw [h0] at hm
      cases hm
  have hlen : idKeys.length ≠ 0 := fun h => hne (List.length_eq_zero.1 h)
  rw [JsonNode.ident, JsonNode.ident]
  simp only [hlen, if_false, hlist, hpos]

/-- C6 at `{"id":1,"name":5}` with `idKeys = ["id"]`, before and after `name` is modified. -/
theorem C6_ident_ignores_other_fields_witness :
    JsonNode.ident examplePackage (.object [("id", .leaf 1), ("name", .leaf 5)] ["id"]) =
      JsonNode.ident examplePackage (.object [("id", .leaf 1), ("name", .leaf 6)] ["id"]) :=
  C6_ident_ignores_other_fields examplePackage _ _ _ (by decide) (by decide) (by decide)

/-! ## The elements of a diff -/

theorem diff_object_of_not_object {L : Type} (P : Package L) (ps : List (String × JsonNode L))
    (idKeys : List String) (n : JsonNode L) (p : Path L) (hn : n.isObject = false) :
    JsonNode.diff P (.object ps idKeys) n p =
      [{ Path := p, OldValues := [.object ps idKeys], NewValues := [n] }] := by
  cases n with
  | object ps2 ids2 => simp [JsonNode.isObject] at hn
  | void => simp [JsonNode.diff]
  | leaf a => simp [JsonNode.diff]

/-- C7. Type-change diff: the diff of an object `o` and a node `n` that is not an
object is the single element with the path `p`, the old value `o` and the new
value `n`. -/
theorem C7_diff_type_change {L : Type} (P : Package L) (ps : List (String × JsonNode L))
    (idKeys : List String) (n : JsonNode L) (p : Path L) (hn : n.isObject = false) :
    JsonNode.diff P (.object ps idKeys) n p =
      [{ Path := p, OldValues := [.object ps idKeys], NewValues := [n] }] := by
  cases n with
  | object ps2 ids2 => simp [JsonNode.isObject] at hn
  | void => simp [JsonNode.diff]
  | leaf a => simp [JsonNode.diff]

/-- C7 at the object `{"x":1}` against the scalar 3, at the path `["k"]`. -/
theorem C7_diff_type_change_witness :
    JsonNode.diff examplePackage (.object [("x", .leaf 1)] []) (.leaf 3) [.key "k"] =
      [{ Path := [.key "k"], OldValues := [.object [("x", .leaf 1)] []], NewValues := [.leaf 3] }] :=
  C7_diff_type_change examplePackage _ _ _ _ rfl

/-- C8. Insertion diff: for a map `a`, a key `k` that `a` misses and a value `v`
that is not Void, the diff of `a` and of `a` plus the pair `(k, v)` (in any storage
order) is the single element with the path `p ++ [k]`, no old value and the new
value `v`, when the diff of every variant other than the object is reflexive. -/
theorem C8_diff_insertion {L : Type} (P : Package L)
    (hP : ∀ (n : JsonNode L) (p : Path L), n.isObject = false → JsonNode.diff P n n p = [])
    (ps ps2 : List (String × JsonNode L)) (ids ids2 : List String) (k : String)
    (v : JsonNode L) (p : Path L)
    (hnd : (keys ps).Nodup) (hk : k ∉ keys ps) (_hv : isVoid v = false)
    (hb : ps2.Perm ((k, v) :: ps)) :
    JsonNode.diff P (.object ps ids) (.object ps2 ids2) p =
      [{ Path := p ++ [.key k], OldValues := [], NewValues := [v] }] := by
  have hnd2 : (keys ((k, v) :: ps)).Nodup := List.nodup_cons.2 ⟨hk, hnd⟩
  have hl2 : ∀ x, ps2.lookup x = if x = k then some v else ps.lookup x := by
    intro x
    rw [← lookup_perm hb.symm hnd2 x, lookup_cons_eq]
  have h1 : ((sortStrings (keys ps)).flatMap fun k1 => diffOldKey P ps ps2 p k1) = [] := by
    apply flatMap_eq_nil_of_forall
    intro x hx
    have hxk : x ≠ k := fun e => hk (e ▸ mem_sortStrings.1 hx)
    simp only [diffOldKey, hl2, hxk, if_false]
    cases hl : ps.lookup x with
    | none => rfl
    | some v1 => exact diff_self P hP v1 _
  have hndk : (sortStrings (keys ps2)).Nodup :=
    (sortStrings_perm _).nodup_iff.2 ((hb.map Prod.fst).nodup_iff.2 hnd2)
  have hkin : k ∈ sortStrings (keys ps2) :=
    mem_sortStrings.2 ((hb.map Prod.fst).symm.subset (List.mem_cons_self _ _))
  have h2 : ((sortStrings (keys ps2)).flatMap fun k2 => diffNewKey ps ps2 p k2) =
      diffNewKey ps ps2 p k := by
    apply flatMap_eq_single hndk hkin
    intro x _ hxk
    simp only [diffNewKey, hl2, hxk, if_false]
    cases hl : ps.lookup x <;> simp
  rw [diff_object, h1, h2, List.nil_append]
  simp [diffNewKey, hl2, lookup_eq_none_iff.2 hk, nodeList]

/-- C8 at `diff({"x":1}, {"x":1,"y":2})`: one element at `["y"]`, old `[]`, new `[2]`. -/
theorem C8_diff_insertion_witness :
    JsonNode.diff examplePackage (.object [("x", .leaf 1)] [])
        (.object [("x", .leaf 1), ("y", .leaf 2)] []) [] =
      [{ Path := [.key "y"], OldValues := [], NewValues := [.leaf 2] }] :=
  C8_diff_insertion examplePackage (scalarPackage_diff_self _ _ _ _)
    [("x", .leaf 1)] [("x", .leaf 1), ("y", .leaf 2)] [] [] "y" (.leaf 2) []
    (by decide) (by decide) rfl
    (@List.perm_append_comm (String × JsonNode Nat) [("x", JsonNode.leaf 1)] [("y", JsonNode.leaf 2)])

/-- C9. Deletion diff: for a map `a` holding the pair `(k, v)`, the diff of `a` and
of `a` without `k` (in any storage order) is the single element with the path
`p ++ [k]`, the old value `v` and no new value, when the diff of every variant other
than the object is reflexive. -/
theorem C9_diff_deletion {L : Type} (P : Package L)
    (hP : ∀ (n : JsonNode L) (p : Path L), n.isObject = false → JsonNode.diff P n n p = [])
    (ps1 ps2 : List (String × JsonNode L)) (ids1 ids2 : List String) (k : String)
    (v : JsonNode L) (p : Path L)
    (hnd : (keys ps1).Nodup) (ha : ps1.Perm ((k, v) :: ps2)) :
    JsonNode.diff P (.object ps1 ids1) (.object ps2 ids2) p =
      [{ Path := p ++ [.key k], OldValues := [v], NewValues := [] }] := by
  have hnd2 : (keys ((k, v) :: ps2)).Nodup := (ha.map Prod.fst).nodup_iff.1 hnd
  have hk : k ∉ keys ps2 := (List.nodup_cons.1 hnd2).1
  have hl1 : ∀ x, ps1.lookup x = if x = k then some v else ps2.lookup x := by
    intro x
    rw [lookup_perm ha hnd x, lookup_cons_eq]
  have hndk : (sortStrings (keys ps1)).Nodup := (sortStrings_perm _).nodup_iff.2 hnd
  have hkin : k ∈ sortStrings (keys ps1) :=
    mem_sortStrings.2 ((ha.map Prod.fst).symm.subset (List.mem_cons_self _ _))
  have h1 : ((sortStrings (keys ps1)).flatMap fun k1 => diffOldKey P ps1 ps2 p k1) =
      diffOldKey P ps1 ps2 p k := by
    apply flatMap_eq_single hndk hkin
    intro x _ hxk
    simp only [diffOldKey, hl1, hxk, if_false]
    cases hl : ps2.lookup x with
    | none => rfl
    | some v1 => exact diff_self P hP v1 _
  have h2 : ((sortStrings (keys ps2)).flatMap fun k2 => diffNewKey ps1 ps2 p k2) = [] := by
    apply flatMap_eq_nil_of_forall
    intro x hx
    have hxk : x ≠ k := fun e => hk (e ▸ mem_sortStrings.1 hx)
    simp only [diffNewKey, hl1, hxk, if_false]
    cases hl : ps2.lookup x <;> simp
  rw [diff_object, h1, h2, List.append_nil]
  simp [diffOldKey, hl1, lookup_eq_none_iff.2 hk, nodeList]

/-- C9 at `diff({"x":1,"z":3}, {"x":1})`: one element at `["z"]`, old `[3]`, new `[]`. -/
theorem C9_diff_deletion_witness :
    JsonNode.diff examplePackage (.object [("x", .leaf 1), ("z", .leaf 3)] [])
        (.object [("x", .leaf 1)] []) [] =
      [{ Path := [.key "z"], OldValues := [.leaf 3], NewValues := [] }] :=
  C9_diff_deletion examplePackage (scalarPackage_diff_self _ _ _ _)
    [("x", .leaf 1), ("z", .leaf 3)] [("x", .leaf 1)] [] [] "z" (.leaf 3) []
    (by decide)
    (@List.perm_append_comm (String × JsonNode Nat) [("x", JsonNode.leaf 1)] [("z", JsonNode.leaf 3)])

/-! ## The paths and the order of a diff -/

/-- The paths of a diff start with the path the diff was given, when this holds of
the variants other than the object. -/
theorem diff_rooted {L : Type} (P : Package L)
    (hP : ∀ (n m : JsonNode L) (q : Path L) (e : DiffElement L), n.isObject = false →
      e ∈ JsonNode.diff P n m q → q <+: e.Path)
    (n : JsonNode L) : ∀ (m : JsonNode L) (q : Path L) (e : DiffElement L),
      e ∈ JsonNode.diff P n m q → q <+: e.Path := by
  induction n using JsonNode.induct with
  | object ps1 ids1 ih =>
    intro m q e he
    cases m with
    | void =>
      rw [diff_object_of_not_object P ps1 ids1 .void q rfl] at he
      obtain rfl := List.mem_singleton.1 he
      exact ⟨[], List.append_nil _⟩
    | leaf a =>
      rw [diff_object_of_not_object P ps1 ids1 (.leaf a) q rfl] at he
      obtain rfl := List.mem_singleton.1 he
      exact ⟨[], List.append_nil _⟩
    | object ps2 ids2 =>
      rw [diff_object, List.mem_append, List.mem_flatMap, List.mem_flatMap] at he
      rcases he with ⟨k, _, hek⟩ | ⟨k, _, hek⟩
      · cases h1 : ps1.lookup k with
        | none => simp only [diffOldKey, h1] at hek; cases hek
        | some v1 =>
          cases h2 : ps2.lookup k with
          | none =>
            simp only [diffOldKey, h1, h2] at hek
            obtain rfl := List.mem_singleton.1 hek
            exact ⟨[.key k], rfl⟩
          | some v2 =>
            simp only [diffOldKey, h1, h2] at hek
            obtain ⟨t, ht⟩ := ih k v1 (lookup_mem h1) v2 _ e hek
            exact ⟨.key k :: t, by rw [← ht, List.append_assoc]; rfl⟩
      · cases h2 : ps2.lookup k with
        | none => simp only [diffNewKey, h2] at hek; cases hek
        | some v2 =>
          by_cases h1 : (ps1.lookup k).isSome = true
          · simp only [diffNewKey, h2, h1, if_true] at hek; cases hek
          · simp only [diffNewKey, h2, h1, if_false] at hek
            obtain rfl := List.mem_singleton.1 hek
            exact ⟨[.key k], rfl⟩
  | void => intro m q e he; exact hP .void m q e rfl he
  | leaf a => intro m q e he; exact hP (.leaf a) m q e rfl he

/-- An element whose path starts with `p ++ [k]` extends `p` by the key `k`. -/
theorem levelKey_of_rooted {L : Type} {p : Path L} {k : String} {e : DiffElement L}
    (h : (p ++ [.key k]) <+: e.Path) : levelKey p e = some k := by
  obtain ⟨t, ht⟩ := h
  rw [levelKey, ← ht, List.append_assoc, List.drop_left]
  rfl

theorem levelKey_diffOldKey {L : Type} (P : Package L)
    (hP : ∀ (n m : JsonNode L) (q : Path L) (e : DiffElement L), n.isObject = false →
      e ∈ JsonNode.diff P n m q → q <+: e.Path)
    (ps1 ps2 : List (String × JsonNode L)) (p : Path L) (k : String) (e : DiffElement L)
    (he : e ∈ diffOldKey P ps1 ps2 p k) : levelKey p e = some k := by
  apply levelKey_of_rooted
  cases h1 : ps1.lookup k with
  | none => simp only [diffOldKey, h1] at he; cases he
  | some v1 =>
    cases h2 : ps2.lookup k with
    | none =>
      simp only [diffOldKey, h1, h2] at he
      obtain rfl := List.mem_singleton.1 he
      exact ⟨[], List.append_nil _⟩
    | some v2 =>
      simp only [diffOldKey, h1, h2] at he
      exact diff_rooted P hP v1 v2 _ e he

theorem levelKey_diffNewKey {L : Type} (ps1 ps2 : List (String × JsonNode L)) (p : Path L)
    (k : String) (e : DiffElement L) (he : e ∈ diffNewKey ps1 ps2 p k) :
    levelKey p e = some k ∧ k ∉ keys ps1 := by
  cases h2 : ps2.lookup k with
  | none => simp only [diffNewKey, h2] at he; cases he
  | some v2 =>
    by_cases h1 : (ps1.lookup k).isSome = true
    · simp only [diffNewKey, h2, h1, if_true] at he; cases he
    · simp only [diffNewKey, h2, h1, if_false] at he
      obtain rfl := List.mem_singleton.1 he
      exact ⟨levelKey_of_rooted ⟨[], List.append_nil _⟩, fun hk => h1 (lookup_isSome_iff.2 hk)⟩

/-- The elements emitted for a sorted list of keys carry their keys in sorted order. -/
theorem sorted_levelKeys_flatMap {α : Type} (f : String → List α) (g : α → Option String) :
    ∀ ks : List String, ks.Sorted keyLE → (∀ k ∈ ks, ∀ e ∈ f k, g e = some k) →
      ((ks.flatMap f).filterMap g).Sorted keyLE
  | [], _, _ => List.Pairwise.nil
  | k :: ks, hs, hg => by
    have hs' := List.sorted_cons.1 hs
    have ih := sorted_levelKeys_flatMap f g ks hs'.2
      (fun x hx => hg x (List.mem_cons_of_mem _ hx))
    have hhead : ∀ x ∈ (f k).filterMap g, x = k := by
      intro x hx
      obtain ⟨e, he, hge⟩ := List.mem_filterMap.1 hx
      rw [hg k (List.mem_cons_self _ _) e he] at hge
      exact (Option.some.inj hge).symm
    rw [List.flatMap_cons, List.filterMap_append]
    refine List.pairwise_append.2 ⟨?_, ih, ?_⟩
    · apply List.pairwise_of_forall_mem_list
      intro x hx y hy
      rw [hhead x hx, hhead y hy]
      exact (keyLE_total.total k k).elim id id
    · intro x hx y hy
      rw [hhead x hx]
      obtain ⟨e, he, hge⟩ := List.mem_filterMap.1 hy
      obtain ⟨k', hk', hek'⟩ := List.mem_flatMap.1 he
      rw [hg k' (List.mem_cons_of_mem _ hk') e hek'] at hge
      rw [← Option.some.inj hge]
      exact hs'.1 k' hk'

theorem scalarPackage_diff_rooted {L : Type} [DecidableEq L] (hash : List UInt8 → HashCode)
    (combine : List HashCode → HashCode) (leafHash : L → HashCode) (voidHash : HashCode)
    (n m : JsonNode L) (q : Path L) (e : DiffElement L) (h : n.isObject = false)
    (he : e ∈ JsonNode.diff (scalarPackage hash combine leafHash voidHash) n m q) :
    q <+: e.Path := by
  rw [diff_of_not_object _ _ _ h] at he
  simp only [scalarPackage, scalarDiff] at he
  split at he
  · cases he
  · obtain rfl := List.mem_singleton.1 he
    exact ⟨[], List.append_nil _⟩

/-- C10 as stated fails: `diff({"z":1}, {"a":2})` is the deletion at `["z"]` followed
by the insertion at `["a"]`, and the keys `z`, `a` are not in sorted order. -/
theorem C10_diff_order_counterexample :
    JsonNode.diff examplePackage (.object [("z", .leaf 1)] []) (.object [("a", .leaf 2)] []) [] =
      [{ Path := [.key "z"], OldValues := [.leaf 1], NewValues := [] },
       { Path := [.key "a"], OldValues := [], NewValues := [.leaf 2] }] ∧
    ¬ ((JsonNode.diff examplePackage (.object [("z", .leaf 1)] [])
        (.object [("a", .leaf 2)] []) []).filterMap (levelKey [])).Sorted keyLE :=
  ⟨rfl, by decide⟩

/-- C10, amended. The diff of two objects is made of two runs: the elements for the
keys of the old object (changes and deletions), then the elements for the keys of
the new object only (insertions); in each run the key that extends `p` is in sorted
order, when the other variants root the paths of their diffs at the path they get. -/
theorem C10_diff_order_two_runs {L : Type} (P : Package L)
    (hP : ∀ (n m : JsonNode L) (q : Path L) (e : DiffElement L), n.isObject = false →
      e ∈ JsonNode.diff P n m q → q <+: e.Path)
    (ps1 ps2 : List (String × JsonNode L)) (ids1 ids2 : List String) (p : Path L) :
    ∃ D1 D2 : Diff L,
      JsonNode.diff P (.object ps1 ids1) (.object ps2 ids2) p = D1 ++ D2 ∧
      (∀ e ∈ D1, ∃ k, k ∈ keys ps1 ∧ levelKey p e = some k) ∧
      (∀ e ∈ D2, ∃ k, k ∈ keys ps2 ∧ k ∉ keys ps1 ∧ levelKey p e = some k) ∧
      (D1.filterMap (levelKey p)).Sorted keyLE ∧
      (D2.filterMap (levelKey p)).Sorted keyLE := by
  refine ⟨(sortStrings (keys ps1)).flatMap fun k1 => diffOldKey P ps1 ps2 p k1,
    (sortStrings (keys ps2)).flatMap fun k2 => diffNewKey ps1 ps2 p k2,
    diff_object P ps1 ps2 ids1 ids2 p, ?_, ?_, ?_, ?_⟩
  · intro e he
    obtain ⟨k, hk, hek⟩ := List.mem_flatMap.1 he
    exact ⟨k, mem_sortStrings.1 hk, levelKey_diffOldKey P hP ps1 ps2 p k e hek⟩
  · intro e he
    obtain ⟨k, hk, hek⟩ := List.mem_flatMap.1 he
    obtain ⟨h1, h2⟩ := levelKey_diffNewKey ps1 ps2 p k e hek
    exact ⟨k, mem_sortStrings.1 hk, h2, h1⟩
  · exact sorted_levelKeys_flatMap _ _ _ (sortStrings_sorted _)
      (fun k _ e he => levelKey_diffOldKey P hP ps1 ps2 p k e he)
  · exact sorted_levelKeys_flatMap _ _ _ (sortStrings_sorted _)
      (fun k _ e he => (levelKey_diffNewKey ps1 ps2 p k e he).1)

/-- C10, amended, at `diff({"z":1}, {"a":2})`. -/
theorem C10_diff_order_two_runs_witness :
    ∃ D1 D2 : Diff Nat,
      JsonNode.diff examplePackage (.object [("z", .leaf 1)] []) (.object [("a", .leaf 2)] []) [] =
        D1 ++ D2 ∧
      (∀ e ∈ D1, ∃ k, k ∈ keys [("z", (.leaf 1 : JsonNode Nat))] ∧ levelKey [] e = some k) ∧
      (∀ e ∈ D2, ∃ k, k ∈ keys [("a", (.leaf 2 : JsonNode Nat))] ∧
        k ∉ keys [("z", (.leaf 1 : JsonNode Nat))] ∧ levelKey [] e = some k) ∧
      (D1.filterMap (levelKey [])).Sorted keyLE ∧
      (D2.filterMap (levelKey [])).Sorted keyLE :=
  C10_diff_order_two_runs examplePackage (scalarPackage_diff_rooted _ _ _ _) _ _ _ _ _

/-! ## Map updates -/

theorem lookup_mapSet {α : Type} (k x : String) (v : α) :
    ∀ ps : List (String × α), (mapSet ps k v).lookup x = if x = k then some v else ps.lookup x
  | [] => by rw [mapSet, lookup_cons_eq]
  | (k', v') :: rest => by
    have ih := lookup_mapSet k x v rest
    by_cases hk : k' = k
    · subst hk
      rw [mapSet, if_pos rfl, lookup_cons_eq, lookup_cons_eq]
      by_cases hx : x = k' <;> simp [hx]
    · rw [mapSet, if_neg hk, lookup_cons_eq, lookup_cons_eq, ih]
      by_cases hx : x = k'
      · have : x ≠ k := fun e => hk (hx ▸ e)
        simp [hx, hk]
      · simp [hx]

theorem lookup_mapDelete {α : Type} (k x : String) :
    ∀ ps : List (String × α), (mapDelete ps k).lookup x = if x = k then none else ps.lookup x
  | [] => by simp [mapDelete]
  | (k', v') :: rest => by
    have ih := lookup_mapDelete k x rest
    simp only [mapDelete] at ih ⊢
    by_cases hk : k' = k
    · subst hk
      simp only [List.filter_cons, bne_self_eq_false, Bool.false_eq_true, if_false, ih,
        lookup_cons_eq]
      by_cases hx : x = k' <;> simp [hx]
    · have hne : (k' != k) = true := by simpa using hk
      simp only [List.filter_cons, hne, if_true, lookup_cons_eq, ih]
      by_cases hx : x = k'
      · simp [hx, hk]
      · simp [hx]

theorem keys_mapSet {α : Type} (k : String) (v : α) :
    ∀ ps : List (String × α),
      keys (mapSet ps k v) = if k ∈ keys ps then keys ps else keys ps ++ [k]
  | [] => by simp [mapSet, keys]
  | (k', v') :: rest => by
    have ih := keys_mapSet k v rest
    simp only [keys] at ih ⊢
    by_cases hk : k' = k
    · subst hk
      simp [mapSet]
    · have hk' : k ≠ k' := fun e => hk e.symm
      rw [mapSet, if_neg hk, List.map_cons, ih]
      by_cases hm : k ∈ List.map Prod.fst rest
      · simp [hm]
      · simp [hm, hk']

theorem nodup_keys_mapSet {α : Type} (k : String) (v : α) (ps : List (String × α))
    (h : (keys ps).Nodup) : (keys (mapSet ps k v)).Nodup := by
  rw [keys_mapSet]
  by_cases hm : k ∈ keys ps
  · rw [if_pos hm]; exact h
  · rw [if_neg hm]
    exact List.nodup_append.2 ⟨h, List.nodup_singleton k, by
      intro x hx hx'
      rw [List.mem_singleton.1 hx'] at hx
      exact hm hx⟩

theorem nodup_keys_mapDelete {α : Type} (k : String) (ps : List (String × α))
    (h : (keys ps).Nodup) : (keys (mapDelete ps k)).Nodup :=
  (List.Sublist.map Prod.fst (List.filter_sublist ps)).nodup h

/-! ## One step of patch -/

theorem patch_object_nil {L : Type} (P : Package L) (ps : List (String × JsonNode L))
    (idKeys : List String) (pb : Path L) (oldValues newValues : List (JsonNode L)) :
    JsonNode.patch P (.object ps idKeys) pb [] oldValues newValues =
      if oldValues.length > 1 ∨ newValues.length > 1 then
        patchErrNonSetDiff oldValues newValues pb
      else if !(JsonNode.Equals P (.object ps idKeys) (singleValue oldValues)) then
        patchErrExpectValue (singleValue oldValues) (.object ps idKeys) pb
      else .ok (singleValue newValues) := by
  rw [JsonNode.patch]

theorem patch_object_key {L : Type} (P : Package L) (ps : List (String × JsonNode L))
    (idKeys : List String) (pb rest : Path L) (pe : String)
    (oldValues newValues : List (JsonNode L)) :
    JsonNode.patch P (.object ps idKeys) pb (.key pe :: rest) oldValues newValues =
      match JsonNode.patch P (nextNode ps pe) (pb ++ [.key pe]) rest oldValues newValues with
      | .error err => .error err
      | .ok patchedNode =>
        if isVoid patchedNode then .ok (.object (mapDelete ps pe) idKeys)
        else .ok (.object (mapSet ps pe patchedNode) idKeys) := by
  rw [JsonNode.patch]
  rfl

theorem patch_of_not_object {L : Type} (P : Package L) {n : JsonNode L} (pb pa : Path L)
    (oldValues newValues : List (JsonNode L)) (h : n.isObject = false) :
    JsonNode.patch P n pb pa oldValues newValues = P.patch n pb pa oldValues newValues := by
  cases n with
  | object ps ids => simp [JsonNode.isObject] at h
  | void => rw [JsonNode.patch]
  | leaf a => rw [JsonNode.patch]

theorem isVoid_eq_true {L : Type} {n : JsonNode L} (h : isVoid n = true) : n = .void := by
  cases n <;> simp [isVoid] at h ⊢

theorem patchFrom_append {L : Type} (P : Package L) (d : Nat) (pb : Path L) :
    ∀ (D1 D2 : Diff L) (n n1 : JsonNode L), patchFrom P d pb n D1 = .ok n1 →
      patchFrom P d pb n (D1 ++ D2) = patchFrom P d pb n1 D2
  | [], D2, n, n1, h => by
    simp only [patchFrom] at h
    cases h; rfl
  | de :: D1, D2, n, n1, h => by
    simp only [patchFrom, List.cons_append] at h ⊢
    cases hp : JsonNode.patch P n pb (de.Path.drop d) de.OldValues de.NewValues with
    | error err => rw [hp] at h; cases h
    | ok n' =>
      rw [hp] at h
      exact patchFrom_append P d pb D1 D2 n' n1 h

theorem patchAll_eq_patchFrom {L : Type} (P : Package L) :
    ∀ (D : Diff L) (n : JsonNode L), patchAll P n D = patchFrom P 0 [] n D
  | [], n => rfl
  | de :: D, n => by
    simp only [patchAll, patchFrom, List.drop_zero]
    cases JsonNode.patch P n [] de.Path de.OldValues de.NewValues with
    | error err => rfl
    | ok n' => exact patchAll_eq_patchFrom P D n'

theorem patch_object_key_ok {L : Type} (P : Package L) (ps : List (String × JsonNode L))
    (idKeys : List String) (pb rest : Path L) (pe : String)
    (oldValues newValues : List (JsonNode L)) (patchedNode : JsonNode L)
    (h : JsonNode.patch P (nextNode ps pe) (pb ++ [.key pe]) rest oldValues newValues =
      .ok patchedNode) :
    JsonNode.patch P (.object ps idKeys) pb (.key pe :: rest) oldValues newValues =
      .ok (.object (mapPut ps pe patchedNode) idKeys) := by
  rw [patch_object_key, h]
  simp only [mapPut]
  split <;> rfl

theorem lookup_mapPut {L : Type} (ps : List (String × JsonNode L)) (k x : String)
    (c : JsonNode L) :
    (mapPut ps k c).lookup x =
      if x = k then (if isVoid c then none else some c) else ps.lookup x := by
  unfold mapPut
  by_cases hc : isVoid c = true
  · rw [if_pos hc, lookup_mapDelete, if_pos hc]
  · rw [if_neg hc, lookup_mapSet, if_neg hc]

theorem nodup_keys_mapPut {L : Type} (ps : List (String × JsonNode L)) (k : String)
    (c : JsonNode L) (h : (keys ps).Nodup) : (keys (mapPut ps k c)).Nodup := by
  unfold mapPut
  split
  · exact nodup_keys_mapDelete k ps h
  · exact nodup_keys_mapSet k c ps h

theorem nextNode_mapPut {L : Type} (ps : List (String × JsonNode L)) (k : String)
    (c : JsonNode L) : nextNode (mapPut ps k c) k = c := by
  rw [nextNode, lookup_mapPut, if_pos rfl]
  by_cases hc : isVoid c = true
  · rw [if_pos hc, isVoid_eq_true hc]
  · rw [if_neg hc]

/-- The elements of a diff whose paths go, after `d` steps, through the key `k` of an
object act on the value at `k` alone: the object ends with that value patched by the
same elements one step further, and with every other key as it was. -/
theorem patchFrom_lift {L : Type} (P : Package L) (d : Nat) (pb : Path L) (k : String)
    (idKeys : List String) :
    ∀ (D : Diff L) (ps : List (String × JsonNode L)) (c : JsonNode L),
      (∀ e ∈ D, e.Path.drop d = .key k :: e.Path.drop (d + 1)) →
      patchFrom P (d + 1) (pb ++ [.key k]) (nextNode ps k) D = .ok c →
      ∃ ps', patchFrom P d pb (.object ps idKeys) D = .ok (.object ps' idKeys) ∧
        ((keys ps).Nodup → (keys ps').Nodup) ∧
        (∀ x, x ≠ k → ps'.lookup x = ps.lookup x) ∧
        (D ≠ [] → ps'.lookup k = if isVoid c then none else some c) ∧
        (D = [] → ps' = ps)
  | [], ps, c, _, _ => ⟨ps, rfl, id, fun _ _ => rfl, fun h => absurd rfl h, fun _ => rfl⟩
  | e :: D, ps, c, hpath, h => by
    simp only [patchFrom] at h
    cases hp : JsonNode.patch P (nextNode ps k) (pb ++ [.key k]) (e.Path.drop (d + 1))
        e.OldValues e.NewValues with
    | error err => rw [hp] at h; cases h
    | ok c1 =>
      rw [hp] at h
      simp only at h
      have hstep := patch_object_key_ok P ps idKeys pb _ k _ _ c1 hp
      rw [← hpath e (List.mem_cons_self _ _)] at hstep
      rw [← nextNode_mapPut ps k c1] at h
      obtain ⟨ps', hres, hnd, hother, hk, hnil⟩ :=
        patchFrom_lift P d pb k idKeys D (mapPut ps k c1) c
          (fun e' he' => hpath e' (List.mem_cons_of_mem _ he')) h
      refine ⟨ps', ?_, fun hps => hnd (nodup_keys_mapPut ps k c1 hps), ?_, ?_, ?_⟩
      · simp only [patchFrom, hstep]
        exact hres
      · intro x hx
        rw [hother x hx, lookup_mapPut, if_neg hx]
      · intro _
        by_cases hD : D = []
        · subst hD
          rw [nextNode_mapPut] at h
          simp only [patchFrom] at h
          cases h
          rw [hnil rfl, lookup_mapPut, if_pos rfl]
        · exact hk hD
      · intro hne
        cases hne

/-! ## Equality -/

theorem Equals_self {L : Type} (P : Package L)
    (hP : ∀ n : JsonNode L, n.isObject = false → JsonNode.Equals P n n = true)
    (n : JsonNode L) : n.distinctKeys = true → JsonNode.Equals P n n = true := by
  induction n using JsonNode.induct with
  | object ps idKeys ih =>
    intro hwf
    obtain ⟨hnd, hwfc⟩ := (distinctKeys_object ps idKeys).1 hwf
    rw [Equals_object]
    exact ⟨rfl, fun k v hm => ⟨v, lookup_of_mem hnd hm, ih k v hm (hwfc k v hm)⟩⟩
  | void => intro _; exact hP _ rfl
  | leaf a => intro _; exact hP _ rfl

/-- A map that has reached the target at every key `Equals` the target. -/
theorem Equals_of_keyDone {L : Type} (P : Package L) (cur ps2 : List (String × JsonNode L))
    (ids ids2 : List String) (hnd : (keys cur).Nodup) (hnd2 : (keys ps2).Nodup)
    (h : ∀ x, keyDone P ps2 x (cur.lookup x)) :
    JsonNode.Equals P (.object cur ids) (.object ps2 ids2) = true := by
  rw [Equals_object]
  constructor
  · have hperm : (keys cur).Perm (keys ps2) := by
      rw [List.perm_ext_iff_of_nodup hnd hnd2]
      intro x
      have hx := h x
      rw [← lookup_isSome_iff, ← lookup_isSome_iff]
      unfold keyDone at hx
      cases h2 : ps2.lookup x with
      | none => rw [h2] at hx; simp [hx]
      | some v2 =>
        rw [h2] at hx
        obtain ⟨c, hc, _⟩ := hx
        simp [hc]
    simpa [keys] using hperm.length_eq
  · intro k v1 hm
    have hx := h k
    rw [lookup_of_mem hnd hm] at hx
    unfold keyDone at hx
    cases h2 : ps2.lookup k with
    | none => rw [h2] at hx; cases hx
    | some v2 =>
      rw [h2] at hx
      obtain ⟨c, hc, hE⟩ := hx
      cases hc
      exact ⟨v2, rfl, hE⟩

/-! ## The package of scalars -/

theorem scalarPackage_Equals_self {L : Type} [DecidableEq L] (hash : List UInt8 → HashCode)
    (combine : List HashCode → HashCode) (leafHash : L → HashCode) (voidHash : HashCode)
    (n : JsonNode L) (h : n.distinctKeys = true) :
    JsonNode.Equals (scalarPackage hash combine leafHash voidHash) n n = true := by
  apply Equals_self _ _ n h
  intro m hm
  cases m with
  | object ps ids => simp [JsonNode.isObject] at hm
  | void => rfl
  | leaf a => simp [JsonNode.Equals, scalarPackage, scalarEquals]

/-- The base case of patch on a value that is the expected old value. -/
theorem scalarPackage_patch_base {L : Type} [DecidableEq L] (hash : List UInt8 → HashCode)
    (combine : List HashCode → HashCode) (leafHash : L → HashCode) (voidHash : HashCode)
    (n : JsonNode L) (pb : Path L) (oldValues newValues : List (JsonNode L))
    (hn : n.distinctKeys = true) (hold : oldValues.length ≤ 1) (hnew : newValues.length ≤ 1)
    (hexp : singleValue oldValues = n) :
    JsonNode.patch (scalarPackage hash combine leafHash voidHash) n pb [] oldValues newValues =
      .ok (singleValue newValues) := by
  have hEq := scalarPackage_Equals_self hash combine leafHash voidHash n hn
  have harity : ¬ (oldValues.length > 1 ∨ newValues.length > 1) := by omega
  cases n with
  | object ps ids =>
    rw [patch_object_nil, if_neg harity, hexp, hEq]
    rfl
  | void =>
    rw [@patch_of_not_object L _ JsonNode.void pb [] oldValues newValues rfl]
    simp only [scalarPackage, scalarPatch, if_neg harity, hexp]
    rfl
  | leaf a =>
    rw [@patch_of_not_object L _ (JsonNode.leaf a) pb [] oldValues newValues rfl]
    simp only [scalarPackage, scalarPatch, if_neg harity, hexp]
    simp [scalarEquals]

/-- After the first `q.length` steps, a path that starts with `q ++ [k]` goes through `k`. -/
theorem drop_of_rooted {L : Type} {q : Path L} {k : String} {e : DiffElement L}
    (h : (q ++ [.key k]) <+: e.Path) :
    e.Path.drop q.length = .key k :: e.Path.drop (q.length + 1) := by
  obtain ⟨t, ht⟩ := h
  have h1 : e.Path.drop q.length = .key k :: t := by
    rw [← ht, List.append_assoc, List.drop_left]; rfl
  have h2 : e.Path.drop (q.length + 1) = t := by
    have hlen : (q ++ [PathElement.key k]).length = q.length + 1 := by simp
    rw [← ht, ← hlen, List.drop_left]
  rw [h1, h2]

/-! ## Patching with the elements of one key -/

/-- The first loop of `diff` at the key `k`, replayed by patch: the value at `k`
reaches the target and the other keys are left alone. -/
theorem patchFrom_oldKey {L : Type} (P : Package L)
    (hroot : ∀ (n m : JsonNode L) (q : Path L) (e : DiffElement L),
      e ∈ JsonNode.diff P n m q → q <+: e.Path)
    (ps1 ps2 : List (String × JsonNode L)) (ids : List String) (q pb : Path L)
    (hdel : ∀ k v1 pb2, ps1.lookup k = some v1 →
      JsonNode.patch P v1 pb2 [] [v1] [] = .ok .void)
    (hchild : ∀ k v1 v2, ps1.lookup k = some v1 → ps2.lookup k = some v2 →
      ∃ r, patchFrom P (q.length + 1) (pb ++ [.key k]) v1
          (JsonNode.diff P v1 v2 (q ++ [.key k])) = .ok r ∧
        JsonNode.Equals P r v2 = true ∧ isVoid r = false)
    (k : String) (v1 : JsonNode L) (h1 : ps1.lookup k = some v1)
    (cur : List (String × JsonNode L)) (hnd : (keys cur).Nodup)
    (hcur : cur.lookup k = some v1) :
    ∃ cur1, patchFrom P q.length pb (.object cur ids) (diffOldKey P ps1 ps2 q k) =
        .ok (.object cur1 ids) ∧
      (keys cur1).Nodup ∧ (∀ x, x ≠ k → cur1.lookup x = cur.lookup x) ∧
      keyDone P ps2 k (cur1.lookup k) := by
  have hnext : nextNode cur k = v1 := by rw [nextNode, hcur]
  cases h2 : ps2.lookup k with
  | none =>
    refine ⟨mapPut cur k .void, ?_, nodup_keys_mapPut cur k _ hnd,
      fun x hx => by rw [lookup_mapPut, if_neg hx], ?_⟩
    · simp only [diffOldKey, h1, h2, patchFrom, List.drop_left, nodeList]
      rw [patch_object_key_ok P cur ids pb [] k _ _ .void (by rw [hnext]; exact hdel k v1 _ h1)]
    · unfold keyDone
      rw [h2, lookup_mapPut, if_pos rfl]
      rfl
  | some v2 =>
    obtain ⟨r, hr, hE, hv⟩ := hchild k v1 v2 h1 h2
    simp only [diffOldKey, h1, h2]
    obtain ⟨cur1, hres, hnd1, hother, hk, hnil⟩ :=
      patchFrom_lift P q.length pb k ids (JsonNode.diff P v1 v2 (q ++ [.key k])) cur r
        (fun e he => drop_of_rooted (hroot v1 v2 _ e he)) (by rw [hnext]; exact hr)
    refine ⟨cur1, hres, hnd1 hnd, hother, ?_⟩
    unfold keyDone
    rw [h2]
    refine ⟨r, ?_, hE⟩
    by_cases hD : JsonNode.diff P v1 v2 (q ++ [.key k]) = []
    · rw [hD] at hr
      simp only [patchFrom] at hr
      cases hr
      rw [hnil hD, hcur]
    · rw [hk hD, hv]
      rfl

/-- The first loop of `diff`, replayed by patch key after key. -/
theorem patchFrom_oldKeys {L : Type} (P : Package L)
    (hroot : ∀ (n m : JsonNode L) (q : Path L) (e : DiffElement L),
      e ∈ JsonNode.diff P n m q → q <+: e.Path)
    (ps1 ps2 : List (String × JsonNode L)) (ids : List String) (q pb : Path L)
    (hdel : ∀ k v1 pb2, ps1.lookup k = some v1 →
      JsonNode.patch P v1 pb2 [] [v1] [] = .ok .void)
    (hchild : ∀ k v1 v2, ps1.lookup k = some v1 → ps2.lookup k = some v2 →
      ∃ r, patchFrom P (q.length + 1) (pb ++ [.key k]) v1
          (JsonNode.diff P v1 v2 (q ++ [.key k])) = .ok r ∧
        JsonNode.Equals P r v2 = true ∧ isVoid r = false) :
    ∀ (ks : List String) (cur : List (String × JsonNode L)), ks.Nodup →
      (∀ k ∈ ks, k ∈ keys ps1) → (keys cur).Nodup →
      (∀ x ∈ ks, cur.lookup x = ps1.lookup x) →
      ∃ cur2, patchFrom P q.length pb (.object cur ids)
          (ks.flatMap fun k => diffOldKey P ps1 ps2 q k) = .ok (.object cur2 ids) ∧
        (keys cur2).Nodup ∧ (∀ x, x ∉ ks → cur2.lookup x = cur.lookup x) ∧
        (∀ x ∈ ks, keyDone P ps2 x (cur2.lookup x))
  | [], cur, _, _, hnd, _ =>
    ⟨cur, rfl, hnd, fun _ _ => rfl, fun _ hx => absurd hx (List.not_mem_nil _)⟩
  | k :: ks, cur, hks, hin, hnd, hcur => by
    obtain ⟨hk, hks2⟩ := List.nodup_cons.1 hks
    have hk1 : k ∈ keys ps1 := hin k (List.mem_cons_self _ _)
    cases h1 : ps1.lookup k with
    | none => exact absurd hk1 (lookup_eq_none_iff.1 h1)
    | some v1 =>
      obtain ⟨cur1, hres1, hnd1, hother1, hdone1⟩ :=
        patchFrom_oldKey P hroot ps1 ps2 ids q pb hdel hchild k v1 h1 cur hnd
          (by rw [hcur k (List.mem_cons_self _ _), h1])
      obtain ⟨cur2, hres2, hnd2, hother2, hdone2⟩ :=
        patchFrom_oldKeys P hroot ps1 ps2 ids q pb hdel hchild ks cur1 hks2
          (fun x hx => hin x (List.mem_cons_of_mem _ hx)) hnd1
          (fun x hx => by
            have hxk : x ≠ k := fun e => hk (e ▸ hx)
            rw [hother1 x hxk, hcur x (List.mem_cons_of_mem _ hx)])
      refine ⟨cur2, ?_, hnd2, ?_, ?_⟩
      · rw [List.flatMap_cons, patchFrom_append P _ _ _ _ _ _ hres1]
        exact hres2
      · intro x hx
        have hxk : x ≠ k := fun e => hx (e ▸ List.mem_cons_self _ _)
        rw [hother2 x (fun h => hx (List.mem_cons_of_mem _ h)), hother1 x hxk]
      · intro x hx
        rcases List.mem_cons.1 hx with hxk | hxks
        · subst hxk
          rw [hother2 x hk]
          exact hdone1
        · exact hdone2 x hxks

/-- The second loop of `diff` at the key `k`, replayed by patch: a key that only the
new object has is inserted, and nothing else changes. -/
theorem patchFrom_newKey {L : Type} (P : Package L)
    (ps1 ps2 : List (String × JsonNode L)) (ids : List String) (q pb : Path L)
    (hins : ∀ k v2 pb2, ps2.lookup k = some v2 →
      JsonNode.patch P .void pb2 [] [] [v2] = .ok v2 ∧ isVoid v2 = false ∧
        JsonNode.Equals P v2 v2 = true)
    (k : String) (cur : List (String × JsonNode L)) (hnd : (keys cur).Nodup)
    (hcur : k ∉ keys ps1 → cur.lookup k = none) :
    ∃ cur1, patchFrom P q.length pb (.object cur ids) (diffNewKey ps1 ps2 q k) =
        .ok (.object cur1 ids) ∧
      (keys cur1).Nodup ∧ (∀ x, x ≠ k → cur1.lookup x = cur.lookup x) ∧
      (k ∈ keys ps1 → cur1 = cur) ∧
      (k ∈ keys ps2 → k ∉ keys ps1 → keyDone P ps2 k (cur1.lookup k)) := by
  cases h2 : ps2.lookup k with
  | none =>
    refine ⟨cur, ?_, hnd, fun _ _ => rfl, fun _ => rfl, ?_⟩
    · simp only [diffNewKey, h2, patchFrom]
    · intro hk2
      exact absurd hk2 (lookup_eq_none_iff.1 h2)
  | some v2 =>
    by_cases h1 : (ps1.lookup k).isSome = true
    · refine ⟨cur, ?_, hnd, fun _ _ => rfl, fun _ => rfl, ?_⟩
      · simp only [diffNewKey, h2, h1, if_true, patchFrom]
      · intro _ hk1
        exact absurd (lookup_isSome_iff.1 h1) hk1
    · have hk1 : k ∉ keys ps1 := fun h => h1 (lookup_isSome_iff.2 h)
      obtain ⟨hp, hv, hE⟩ := hins k v2 (pb ++ [.key k]) h2
      have hnext : nextNode cur k = .void := by rw [nextNode, hcur hk1]
      refine ⟨mapPut cur k v2, ?_, nodup_keys_mapPut cur k _ hnd,
        fun x hx => by rw [lookup_mapPut, if_neg hx], fun h => absurd h hk1, ?_⟩
      · simp only [diffNewKey, h2, h1, if_false, patchFrom, List.drop_left, nodeList]
        rw [patch_object_key_ok P cur ids pb [] k _ _ v2 (by rw [hnext]; exact hp)]
      · intro _ _
        unfold keyDone
        rw [h2]
        exact ⟨v2, by rw [lookup_mapPut, if_pos rfl, hv]; rfl, hE⟩

/-- The second loop of `diff`, replayed by patch key after key. -/
theorem patchFrom_newKeys {L : Type} (P : Package L)
    (ps1 ps2 : List (String × JsonNode L)) (ids : List String) (q pb : Path L)
    (hins : ∀ k v2 pb2, ps2.lookup k = some v2 →
      JsonNode.patch P .void pb2 [] [] [v2] = .ok v2 ∧ isVoid v2 = false ∧
        JsonNode.Equals P v2 v2 = true) :
    ∀ (ks : List String) (cur : List (String × JsonNode L)), ks.Nodup →
      (∀ k ∈ ks, k ∈ keys ps2) → (keys cur).Nodup →
      (∀ x ∈ ks, x ∉ keys ps1 → cur.lookup x = none) →
      ∃ cur2, patchFrom P q.length pb (.object cur ids)
          (ks.flatMap fun k => diffNewKey ps1 ps2 q k) = .ok (.object cur2 ids) ∧
        (keys cur2).Nodup ∧
        (∀ x, (x ∉ ks ∨ x ∈ keys ps1) → cur2.lookup x = cur.lookup x) ∧
        (∀ x ∈ ks, x ∉ keys ps1 → keyDone P ps2 x (cur2.lookup x))
  | [], cur, _, _, hnd, _ =>
    ⟨cur, rfl, hnd, fun _ _ => rfl, fun _ hx => absurd hx (List.not_mem_nil _)⟩
  | k :: ks, cur, hks, hin, hnd, hcur => by
    obtain ⟨hk, hks2⟩ := List.nodup_cons.1 hks
    obtain ⟨cur1, hres1, hnd1, hother1, hsame1, hdone1⟩ :=
      patchFrom_newKey P ps1 ps2 ids q pb hins k cur hnd (hcur k (List.mem_cons_self _ _))
    obtain ⟨cur2, hres2, hnd2, hother2, hdone2⟩ :=
      patchFrom_newKeys P ps1 ps2 ids q pb hins ks cur1 hks2
        (fun x hx => hin x (List.mem_cons_of_mem _ hx)) hnd1
        (fun x hx hx1 => by
          have hxk : x ≠ k := fun e => hk (e ▸ hx)
          rw [hother1 x hxk]
          exact hcur x (List.mem_cons_of_mem _ hx) hx1)
    refine ⟨cur2, ?_, hnd2, ?_, ?_⟩
    · rw [List.flatMap_cons, patchFrom_append P _ _ _ _ _ _ hres1]
      exact hres2
    · intro x hx
      have hx2 : x ∉ ks ∨ x ∈ keys ps1 :=
        hx.imp (fun h hm => h (List.mem_cons_of_mem _ hm)) id
      rw [hother2 x hx2]
      by_cases hxk : x = k
      · subst hxk
        rcases hx with hx | hx
        · exact absurd (List.mem_cons_self _ _) hx
        · rw [hsame1 hx]
      · exact hother1 x hxk
    · intro x hx hx1
      rcases List.mem_cons.1 hx with hxk | hxks
      · subst hxk
        rw [hother2 x (Or.inl hk)]
        exact hdone1 (hin x (List.mem_cons_self _ _)) hx1
      · exact hdone2 x hxks hx1

/-! ## Round trip -/

/-- Replaying the diff of `a` and `b` on `a`, from any depth, succeeds and gives a
value that `Equals` `b`, for trees of objects and scalars. -/
theorem patchFrom_diff {L : Type} [DecidableEq L] (hash : List UInt8 → HashCode)
    (combine : List HashCode → HashCode) (leafHash : L → HashCode) (voidHash : HashCode)
    (a : JsonNode L) :
    ∀ (b : JsonNode L) (q pb : Path L), a.distinctKeys = true → a.noVoidValues = true →
      isVoid a = false → b.distinctKeys = true → b.noVoidValues = true → isVoid b = false →
      ∃ r, patchFrom (scalarPackage hash combine leafHash voidHash) q.length pb a
          (JsonNode.diff (scalarPackage hash combine leafHash voidHash) a b q) = .ok r ∧
        JsonNode.Equals (scalarPackage hash combine leafHash voidHash) r b = true ∧
        isVoid r = false := by
  induction a using JsonNode.induct with
  | void =>
    intro b q pb _ _ hv
    simp [isVoid] at hv
  | leaf x =>
    intro b q pb _ _ _ hbd _ hbv
    rw [@diff_of_not_object L _ (JsonNode.leaf x) b q rfl]
    simp only [scalarPackage, scalarDiff]
    by_cases hE : scalarEquals (JsonNode.leaf x) b = true
    · rw [if_pos hE]
      refine ⟨.leaf x, rfl, ?_, rfl⟩
      simpa [JsonNode.Equals] using hE
    · rw [if_neg hE]
      refine ⟨b, ?_, scalarPackage_Equals_self hash combine leafHash voidHash b hbd, hbv⟩
      simp only [patchFrom, List.drop_length, nodeList]
      have hp := scalarPackage_patch_base hash combine leafHash voidHash (.leaf x) pb
        [.leaf x] [b] rfl (by simp) (by simp) rfl
      simp only [scalarPackage] at hp
      rw [hp]
      rfl
  | object ps1 ids1 ih =>
    intro b q pb had hav _ hbd hbv hbvoid
    cases b with
    | void => simp [isVoid] at hbvoid
    | leaf y =>
      rw [diff_object_of_not_object _ _ _ (.leaf y) q rfl]
      refine ⟨.leaf y, ?_, scalarPackage_Equals_self hash combine leafHash voidHash _ rfl, rfl⟩
      simp only [patchFrom, List.drop_length]
      rw [scalarPackage_patch_base hash combine leafHash voidHash (.object ps1 ids1) pb
        [.object ps1 ids1] [.leaf y] had (by simp) (by simp) rfl]
      rfl
    | object ps2 ids2 =>
      obtain ⟨hnd1, hwf1⟩ := (distinctKeys_object ps1 ids1).1 had
      obtain ⟨hnd2, hwf2⟩ := (distinctKeys_object ps2 ids2).1 hbd
      have hnv1 := (noVoidValues_object ps1 ids1).1 hav
      have hnv2 := (noVoidValues_object ps2 ids2).1 hbv
      have hroot := diff_rooted (scalarPackage hash combine leafHash voidHash)
        (scalarPackage_diff_rooted hash combine leafHash voidHash)
      have hdel : ∀ k v1 pb2, ps1.lookup k = some v1 →
          JsonNode.patch (scalarPackage hash combine leafHash voidHash) v1 pb2 [] [v1] [] =
            .ok .void :=
        fun k v1 pb2 h => scalarPackage_patch_base hash combine leafHash voidHash v1 pb2
          [v1] [] (hwf1 k v1 (lookup_mem h)) (by simp) (by simp) rfl
      have hchild : ∀ k v1 v2, ps1.lookup k = some v1 → ps2.lookup k = some v2 →
          ∃ r, patchFrom (scalarPackage hash combine leafHash voidHash) (q.length + 1)
              (pb ++ [.key k]) v1
              (JsonNode.diff (scalarPackage hash combine leafHash voidHash) v1 v2
                (q ++ [.key k])) = .ok r ∧
            JsonNode.Equals (scalarPackage hash combine leafHash voidHash) r v2 = true ∧
            isVoid r = false := by
        intro k v1 v2 h1 h2
        have h := ih k v1 (lookup_mem h1) v2 (q ++ [.key k]) (pb ++ [.key k])
          (hwf1 k v1 (lookup_mem h1)) (hnv1 k v1 (lookup_mem h1)).2
          (hnv1 k v1 (lookup_mem h1)).1 (hwf2 k v2 (lookup_mem h2))
          (hnv2 k v2 (lookup_mem h2)).2 (hnv2 k v2 (lookup_mem h2)).1
        rwa [List.length_append, List.length_singleton] at h
      have hins : ∀ k v2 pb2, ps2.lookup k = some v2 →
          JsonNode.patch (scalarPackage hash combine leafHash voidHash) .void pb2 [] [] [v2] =
            .ok v2 ∧ isVoid v2 = false ∧
          JsonNode.Equals (scalarPackage hash combine leafHash voidHash) v2 v2 = true :=
        fun k v2 pb2 h =>
          ⟨scalarPackage_patch_base hash combine leafHash voidHash .void pb2 [] [v2] rfl
              (by simp) (by simp) rfl,
            (hnv2 k v2 (lookup_mem h)).1,
            scalarPackage_Equals_self hash combine leafHash voidHash v2
              (hwf2 k v2 (lookup_mem h))⟩
      obtain ⟨curA, hresA, hndA, hotherA, hdoneA⟩ :=
        patchFrom_oldKeys (scalarPackage hash combine leafHash voidHash) hroot ps1 ps2 ids1 q pb
          hdel hchild (sortStrings (keys ps1)) ps1
          ((sortStrings_perm _).nodup_iff.2 hnd1) (fun k hk => mem_sortStrings.1 hk) hnd1
          (fun _ _ => rfl)
      obtain ⟨curB, hresB, hndB, hotherB, hdoneB⟩ :=
        patchFrom_newKeys (scalarPackage hash combine leafHash voidHash) ps1 ps2 ids1 q pb
          hins (sortStrings (keys ps2)) curA
          ((sortStrings_perm _).nodup_iff.2 hnd2) (fun k hk => mem_sortStrings.1 hk) hndA
          (fun x _ hx1 => by
            rw [hotherA x (fun h => hx1 (mem_sortStrings.1 h))]
            exact lookup_eq_none_iff.2 hx1)
      refine ⟨.object curB ids1, ?_, ?_, rfl⟩
      · rw [diff_object, patchFrom_append _ _ _ _ _ _ _ hresA]
        exact hresB
      · apply Equals_of_keyDone _ curB ps2 ids1 ids2 hndB hnd2
        intro x
        by_cases hx1 : x ∈ keys ps1
        · rw [hotherB x (Or.inr hx1)]
          exact hdoneA x (mem_sortStrings.2 hx1)
        · by_cases hx2 : x ∈ keys ps2
          · exact hdoneB x (mem_sortStrings.2 hx2) hx1
          · rw [hotherB x (Or.inl (fun h => hx2 (mem_sortStrings.1 h))),
              hotherA x (fun h => hx1 (mem_sortStrings.1 h))]
            unfold keyDone
            rw [lookup_eq_none_iff.2 hx2]
            exact lookup_eq_none_iff.2 hx1

/-- C1. Round trip: for two objects made of objects and scalars (maps with distinct
keys and no Void value, at every level), `Patch` of the first with the `Diff` of the
two succeeds and returns a node that `Equals` the second. -/
theorem C1_round_trip {L : Type} [DecidableEq L] (hash : List UInt8 → HashCode)
    (combine : List HashCode → HashCode) (leafHash : L → HashCode) (voidHash : HashCode)
    (ps1 ps2 : List (String × JsonNode L)) (ids1 ids2 : List String)
    (ha : JsonNode.distinctKeys (.object ps1 ids1) = true)
    (hav : JsonNode.noVoidValues (.object ps1 ids1) = true)
    (hb : JsonNode.distinctKeys (.object ps2 ids2) = true)
    (hbv : JsonNode.noVoidValues (.object ps2 ids2) = true) :
    ∃ r, JsonNode.Patch (scalarPackage hash combine leafHash voidHash) (.object ps1 ids1)
        (JsonNode.Diff (scalarPackage hash combine leafHash voidHash)
          (.object ps1 ids1) (.object ps2 ids2)) = .ok r ∧
      JsonNode.Equals (scalarPackage hash combine leafHash voidHash) r (.object ps2 ids2) =
        true := by
  obtain ⟨r, hr, hE, _⟩ := patchFrom_diff hash combine leafHash voidHash (.object ps1 ids1)
    (.object ps2 ids2) [] [] ha hav rfl hb hbv rfl
  refine ⟨r, ?_, hE⟩
  rw [JsonNode.Patch, JsonNode.Diff, patchAll_eq_patchFrom]
  exact hr

/-- C1 at `{"x":1,"z":3,"o":{"y":1,"u":4}}` and `{"x":2,"o":{"y":1,"w":{}},"n":5}`: a
change, a deletion, an insertion and a nested object. -/
theorem C1_round_trip_witness :
    ∃ r, JsonNode.Patch examplePackage
        (.object [("x", .leaf 1), ("z", .leaf 3),
          ("o", .object [("y", .leaf 1), ("u", .leaf 4)] [])] [])
        (JsonNode.Diff examplePackage
          (.object [("x", .leaf 1), ("z", .leaf 3),
            ("o", .object [("y", .leaf 1), ("u", .leaf 4)] [])] [])
          (.object [("x", .leaf 2), ("o", .object [("y", .leaf 1), ("w", .object [] [])] []),
            ("n", .leaf 5)] [])) = .ok r ∧
      JsonNode.Equals examplePackage r
        (.object [("x", .leaf 2), ("o", .object [("y", .leaf 1), ("w", .object [] [])] []),
          ("n", .leaf 5)] []) = true :=
  C1_round_trip exampleHash exampleCombine (fun n => exampleHash [UInt8.ofNat n])
    (exampleHash []) _ _ _ _ (by decide) (by decide) (by decide) (by decide)

/-! ## Rooted paths -/

/-- C11. Paths are rooted: every element of the diff of an object `a` and a node `b`
at the path `p` has a path that starts with `p`, when the other variants root the
paths of their diffs at the path they get; `Diff` is the diff at the empty path. -/
theorem C11_diff_paths_rooted {L : Type} (P : Package L)
    (hP : ∀ (n m : JsonNode L) (q : Path L) (e : DiffElement L), n.isObject = false →
      e ∈ JsonNode.diff P n m q → q <+: e.Path)
    (ps : List (String × JsonNode L)) (idKeys : List String) (b : JsonNode L) (p : Path L) :
    (∀ e ∈ JsonNode.diff P (.object ps idKeys) b p, p <+: e.Path) ∧
    JsonNode.Diff P (.object ps idKeys) b = JsonNode.diff P (.object ps idKeys) b [] ∧
    (∀ e ∈ JsonNode.Diff P (.object ps idKeys) b, [] <+: e.Path) :=
  ⟨fun e he => diff_rooted P hP _ b p e he, rfl,
    fun e he => diff_rooted P hP _ b [] e he⟩

/-- C11 at the diff of `{"o":{"y":1},"z":3}` and `{"o":{"y":2}}`, at the path `["r"]`. -/
theorem C11_diff_paths_rooted_witness :
    (∀ e ∈ JsonNode.diff examplePackage
        (.object [("o", .object [("y", .leaf 1)] []), ("z", .leaf 3)] [])
        (.object [("o", .object [("y", .leaf 2)] [])] []) [.key "r"],
      [.key "r"] <+: e.Path) ∧
    JsonNode.Diff examplePackage
        (.object [("o", .object [("y", .leaf 1)] []), ("z", .leaf 3)] [])
        (.object [("o", .object [("y", .leaf 2)] [])] []) =
      JsonNode.diff examplePackage
        (.object [("o", .object [("y", .leaf 1)] []), ("z", .leaf 3)] [])
        (.object [("o", .object [("y", .leaf 2)] [])] []) [] ∧
    (∀ e ∈ JsonNode.Diff examplePackage
        (.object [("o", .object [("y", .leaf 1)] []), ("z", .leaf 3)] [])
        (.object [("o", .object [("y", .leaf 2)] [])] []),
      [] <+: e.Path) :=
  C11_diff_paths_rooted examplePackage (scalarPackage_diff_rooted _ _ _ _) _ _ _ _

/-! ## The cases of patch -/

/-- C12. Arity check: at the end of the path, a patch with more than one old value
or more than one new value fails with `NonSetDiffEntry`, whatever the object is. -/
theorem C12_patch_arity_check {L : Type} (P : Package L) (ps : List (String × JsonNode L))
    (idKeys : List String) (pathBehind : Path L) (oldValues newValues : List (JsonNode L))
    (h : oldValues.length > 1 ∨ newValues.length > 1) :
    JsonNode.patch P (.object ps idKeys) pathBehind [] oldValues newValues =
      .error (.nonSetDiffEntry oldValues newValues pathBehind) := by
  rw [patch_object_nil, if_pos h]
  rfl

/-- C12 at the object `{"x":1}` with the old values `[{"x":1}, 2]`, the first of which
the object equals. -/
theorem C12_patch_arity_check_witness :
    JsonNode.patch examplePackage (.object [("x", .leaf 1)] []) [.key "r"] []
        [.object [("x", .leaf 1)] [], .leaf 2] [.leaf 3] =
      .error (.nonSetDiffEntry [.object [("x", .leaf 1)] [], .leaf 2] [.leaf 3] [.key "r"]) :=
  C12_patch_arity_check examplePackage _ _ _ _ _ (Or.inl (by decide))

/-- C13. Patch base case: at the end of the path, with at most one old and one new
value, patch fails with `PatchConflict` exactly when the object does not `Equals`
the expected old value (the sole old value, or Void), and otherwise returns the sole
new value, or Void. -/
theorem C13_patch_base_case {L : Type} (P : Package L) (ps : List (String × JsonNode L))
    (idKeys : List String) (pathBehind : Path L) (oldValues newValues : List (JsonNode L))
    (hold : oldValues.length ≤ 1) (hnew : newValues.length ≤ 1) :
    (JsonNode.patch P (.object ps idKeys) pathBehind [] oldValues newValues =
        .error (.patchConflict (singleValue oldValues) (.object ps idKeys) pathBehind) ↔
      JsonNode.Equals P (.object ps idKeys) (singleValue oldValues) = false) ∧
    (JsonNode.Equals P (.object ps idKeys) (singleValue oldValues) = true →
      JsonNode.patch P (.object ps idKeys) pathBehind [] oldValues newValues =
        .ok (singleValue newValues)) := by
  have harity : ¬ (oldValues.length > 1 ∨ newValues.length > 1) := by omega
  rw [patch_object_nil, if_neg harity]
  cases hE : JsonNode.Equals P (.object ps idKeys) (singleValue oldValues) with
  | false => simp [patchErrExpectValue]
  | true => simp

/-- C13 at the object `{"x":5}`: the old value `{"x":1}` is a conflict, the old value
`{"x":5}` gives the new value. -/
theorem C13_patch_base_case_witness :
    JsonNode.patch examplePackage (.object [("x", .leaf 5)] []) [] []
        [.object [("x", .leaf 1)] []] [.leaf 2] =
      .error (.patchConflict (.object [("x", .leaf 1)] []) (.object [("x", .leaf 5)] []) []) ∧
    JsonNode.patch examplePackage (.object [("x", .leaf 5)] []) [] []
        [.object [("x", .leaf 5)] []] [.leaf 2] = .ok (.leaf 2) :=
  ⟨(C13_patch_base_case examplePackage [("x", .leaf 5)] [] [] [.object [("x", .leaf 1)] []]
      [.leaf 2] (by decide) (by decide)).1.2 (by decide),
   (C13_patch_base_case examplePackage [("x", .leaf 5)] [] [] [.object [("x", .leaf 5)] []]
      [.leaf 2] (by decide) (by decide)).2 (by decide)⟩

/-- C14. Path type mismatch: when the next step of the path is not a string key (an
index or an identity mapping), patch returns an error and no node, whatever the old
and new values are. -/
theorem C14_patch_path_type_mismatch {L : Type} (P : Package L)
    (ps : List (String × JsonNode L)) (idKeys : List String) (pathBehind rest : Path L)
    (pe : PathElement L) (oldValues newValues : List (JsonNode L))
    (hpe : ∀ k, pe ≠ .key k) :
    JsonNode.patch P (.object ps idKeys) pathBehind (pe :: rest) oldValues newValues =
      .error (.pathTypeMismatch (.object ps idKeys) pathBehind) := by
  cases pe with
  | key k => exact absurd rfl (hpe k)
  | index i => simp [JsonNode.patch]
  | ident m => simp [JsonNode.patch]

/-- C14 at the object `{"x":1}` and the path `[0, "x"]`. -/
theorem C14_patch_path_type_mismatch_witness :
    JsonNode.patch examplePackage (.object [("x", .leaf 1)] []) [] [.index 0, .key "x"]
        [.leaf 1] [.leaf 2] =
      .error (.pathTypeMismatch (.object [("x", .leaf 1)] []) []) :=
  C14_patch_path_type_mismatch examplePackage _ _ _ _ _ _ _ (fun k h => by cases h)

/-- C15. Patch recursive step and frame: when the next step is the string key `k` and
patching the value at `k` (Void when the key is absent) along the rest of the path
succeeds with `r`, patch returns the object with `k` removed when `r` is Void and
with `k` mapped to `r` otherwise; every other key keeps its value. -/
theorem C15_patch_recursive_step {L : Type} (P : Package L) (ps : List (String × JsonNode L))
    (idKeys : List String) (pathBehind rest : Path L) (k : String)
    (oldValues newValues : List (JsonNode L)) (r : JsonNode L)
    (h : JsonNode.patch P (nextNode ps k) (pathBehind ++ [.key k]) rest oldValues newValues =
      .ok r) :
    ∃ ps2, JsonNode.patch P (.object ps idKeys) pathBehind (.key k :: rest) oldValues
          newValues = .ok (.object ps2 idKeys) ∧
      ps2.lookup k = (if isVoid r then none else some r) ∧
      (∀ x, x ≠ k → ps2.lookup x = ps.lookup x) ∧
      ((keys ps).Nodup → (keys ps2).Nodup) := by
  refine ⟨mapPut ps k r, patch_object_key_ok P ps idKeys pathBehind rest k _ _ r h, ?_, ?_,
    nodup_keys_mapPut ps k r⟩
  · rw [lookup_mapPut, if_pos rfl]
  · intro x hx
    rw [lookup_mapPut, if_neg hx]

/-- C15 at `{"x":1,"y":2}`: the patch of `x` from 1 to 5 sets `x` and keeps `y`. -/
theorem C15_patch_recursive_step_witness :
    ∃ ps2, JsonNode.patch examplePackage (.object [("x", .leaf 1), ("y", .leaf 2)] []) []
          [.key "x"] [.leaf 1] [.leaf 5] = .ok (.object ps2 []) ∧
      ps2.lookup "x" = (if isVoid (JsonNode.leaf 5 : JsonNode Nat) then none
        else some (.leaf 5)) ∧
      (∀ x, x ≠ "x" → ps2.lookup x = [("x", JsonNode.leaf 1), ("y", JsonNode.leaf 2)].lookup x) ∧
      ((keys [("x", (JsonNode.leaf 1 : JsonNode Nat)), ("y", .leaf 2)]).Nodup →
        (keys ps2).Nodup) :=
  C15_patch_recursive_step examplePackage [("x", .leaf 1), ("y", .leaf 2)] [] [] [] "x"
    [.leaf 1] [.leaf 5] (.leaf 5) rfl

theorem mem_mapSet {α : Type} {k x : String} {v c : α} :
    ∀ {ps : List (String × α)}, (x, v) ∈ mapSet ps k c → (x, v) ∈ ps ∨ (x, v) = (k, c)
  | [], h => by
    rw [mapSet] at h
    exact Or.inr (List.mem_singleton.1 h)
  | (k', v') :: rest, h => by
    by_cases hk : k' = k
    · rw [mapSet, if_pos hk] at h
      rcases List.mem_cons.1 h with h | h
      · exact Or.inr h
      · exact Or.inl (List.mem_cons_of_mem _ h)
    · rw [mapSet, if_neg hk] at h
      rcases List.mem_cons.1 h with h | h
      · exact Or.inl (h ▸ List.mem_cons_self _ _)
      · rcases mem_mapSet h with h | h
        · exact Or.inl (List.mem_cons_of_mem _ h)
        · exact Or.inr h

theorem mem_mapPut {L : Type} {ps : List (String × JsonNode L)} {k x : String}
    {v c : JsonNode L} (h : (x, v) ∈ mapPut ps k c) :
    (x, v) ∈ ps ∨ (v = c ∧ isVoid c = false) := by
  unfold mapPut at h
  by_cases hc : isVoid c = true
  · rw [if_pos hc] at h
    exact Or.inl (List.mem_of_mem_filter h)
  · rw [if_neg hc] at h
    rcases mem_mapSet h with h | h
    · exact Or.inl h
    · exact Or.inr ⟨(Prod.mk.inj h).2, by simpa using hc⟩

/-- C16. No Void values: when no value of the properties of an object is Void, a
successful patch through a path that is not empty returns an object no value of
whose properties is Void. -/
theorem C16_patch_keeps_no_void {L : Type} (P : Package L) (ps : List (String × JsonNode L))
    (idKeys : List String) (pathBehind rest : Path L) (pe : PathElement L)
    (oldValues newValues : List (JsonNode L)) (r : JsonNode L)
    (hps : ∀ k v, (k, v) ∈ ps → isVoid v = false)
    (h : JsonNode.patch P (.object ps idKeys) pathBehind (pe :: rest) oldValues newValues =
      .ok r) :
    ∃ ps2 ids2, r = .object ps2 ids2 ∧ ∀ k v, (k, v) ∈ ps2 → isVoid v = false := by
  cases pe with
  | index i => simp [JsonNode.patch] at h
  | ident m => simp [JsonNode.patch] at h
  | key k =>
    cases hc : JsonNode.patch P (nextNode ps k) (pathBehind ++ [.key k]) rest oldValues
        newValues with
    | error err => rw [patch_object_key, hc] at h; cases h
    | ok c =>
      rw [patch_object_key_ok P ps idKeys pathBehind rest k _ _ c hc] at h
      cases h
      refine ⟨mapPut ps k c, idKeys, rfl, ?_⟩
      intro x v hm
      rcases mem_mapPut hm with hm | ⟨hv, hvoid⟩
      · exact hps x v hm
      · rw [hv]; exact hvoid

/-- C16 at `{"x":1,"y":2}`: after the deletion of `x` no value of the result is Void. -/
theorem C16_patch_keeps_no_void_witness :
    ∃ ps2 ids2, (JsonNode.object [("y", .leaf 2)] [] : JsonNode Nat) = .object ps2 ids2 ∧
      ∀ k v, (k, v) ∈ ps2 → isVoid v = false :=
  C16_patch_keeps_no_void examplePackage [("x", .leaf 1), ("y", .leaf 2)] [] [] []
    (.key "x") [.leaf 1] [] (.object [("y", .leaf 2)] [])
    (fun k v hm => by
      rcases List.mem_cons.1 hm with hm | hm
      · cases hm; rfl
      · rcases List.mem_cons.1 hm with hm | hm
        · cases hm; rfl
        · cases hm)
    rfl

/-! ## The identity path element -/

theorem pathIdentLoop_nodup {L : Type} (ps : List (String × JsonNode L)) :
    ∀ (ks : List String) (id : List (String × JsonNode L)), (keys id).Nodup →
      (keys (pathIdentLoop ps ks id)).Nodup
  | [], id, h => h
  | key :: rest, id, h => by
    rw [pathIdentLoop]
    cases ps.lookup key with
    | none => exact pathIdentLoop_nodup ps rest id h
    | some value => exact pathIdentLoop_nodup ps rest _ (nodup_keys_mapSet key value id h)

theorem pathIdentLoop_lookup {L : Type} (ps : List (String × JsonNode L)) (x : String) :
    ∀ (ks : List String) (id : List (String × JsonNode L)),
      (pathIdentLoop ps ks id).lookup x =
        if x ∈ ks ∧ (ps.lookup x).isSome = true then ps.lookup x else id.lookup x
  | [], id => by simp [pathIdentLoop]
  | key :: rest, id => by
    rw [pathIdentLoop]
    by_cases hc : x ∈ rest ∧ (ps.lookup x).isSome = true
    · have hc2 : x ∈ key :: rest ∧ (ps.lookup x).isSome = true :=
        ⟨List.mem_cons_of_mem _ hc.1, hc.2⟩
      rw [if_pos hc2]
      cases ps.lookup key with
      | none => simp only; rw [pathIdentLoop_lookup ps x rest id, if_pos hc]
      | some value => simp only; rw [pathIdentLoop_lookup ps x rest _, if_pos hc]
    · cases hl : ps.lookup key with
      | none =>
        simp only
        rw [pathIdentLoop_lookup ps x rest id, if_neg hc, if_neg]
        rintro ⟨hm, hs⟩
        rcases List.mem_cons.1 hm with hm | hm
        · rw [hm, hl] at hs; cases hs
        · exact hc ⟨hm, hs⟩
      | some value =>
        simp only
        rw [pathIdentLoop_lookup ps x rest _, if_neg hc, lookup_mapSet]
        by_cases hx : x = key
        · rw [if_pos hx, if_pos ⟨hx ▸ List.mem_cons_self _ _, by rw [hx, hl]; rfl⟩, hx, hl]
        · rw [if_neg hx, if_neg]
          rintro ⟨hm, hs⟩
          exact hc ⟨(List.mem_cons.1 hm).resolve_left hx, hs⟩

/-- C17. Identity path element: `pathIdent` is a mapping (distinct keys) whose keys are
exactly the `idKeys` that are properties of the object, each with the value the
object has for it; the mapping is empty when `idKeys` is empty or none is present. -/
theorem C17_pathIdent_mapping {L : Type} (ps : List (String × JsonNode L))
    (idKeys : List String) :
    ∃ m, pathIdent ps idKeys = .ident m ∧ (keys m).Nodup ∧
      (∀ k, k ∈ keys m ↔ k ∈ idKeys ∧ k ∈ keys ps) ∧
      (∀ k, k ∈ keys m → m.lookup k = ps.lookup k) ∧
      ((idKeys = [] ∨ ∀ k ∈ idKeys, k ∉ keys ps) → m = []) := by
  have hl : ∀ k, (pathIdentLoop ps idKeys []).lookup k =
      if k ∈ idKeys ∧ (ps.lookup k).isSome = true then ps.lookup k else none := by
    intro k
    rw [pathIdentLoop_lookup]
    rfl
  have hkeys : ∀ k, k ∈ keys (pathIdentLoop ps idKeys []) ↔ k ∈ idKeys ∧ k ∈ keys ps := by
    intro k
    rw [← lookup_isSome_iff, hl k, ← lookup_isSome_iff]
    by_cases hc : k ∈ idKeys ∧ (ps.lookup k).isSome = true
    · rw [if_pos hc]; exact ⟨fun _ => hc, fun h => h.2⟩
    · rw [if_neg hc]; exact ⟨fun h => (by cases h), fun h => absurd h hc⟩
  refine ⟨pathIdentLoop ps idKeys [], rfl, pathIdentLoop_nodup ps idKeys [] List.nodup_nil,
    hkeys, ?_, ?_⟩
  · intro k hk
    rw [hl k, if_pos (by rw [lookup_isSome_iff]; exact (hkeys k).1 hk)]
  · intro h
    have hnone : ∀ k, k ∉ keys (pathIdentLoop ps idKeys []) := by
      intro k hk
      obtain ⟨h1, h2⟩ := (hkeys k).1 hk
      rcases h with h | h
      · rw [h] at h1; cases h1
      · exact h k h1 h2
    cases hm : pathIdentLoop ps idKeys [] with
    | nil => rfl
    | cons kv tl =>
      rw [hm] at hnone
      exact absurd (List.mem_cons_self _ _) (hnone kv.1)

/-- C17 at `{"id":1,"name":5}` with `idKeys = ["id", "uid"]`: the mapping is `{"id":1}`. -/
theorem C17_pathIdent_mapping_witness :
    pathIdent [("id", (JsonNode.leaf 1 : JsonNode Nat)), ("name", .leaf 5)] ["id", "uid"] =
      .ident [("id", .leaf 1)] ∧
    ∃ m, pathIdent [("id", (JsonNode.leaf 1 : JsonNode Nat)), ("name", .leaf 5)]
        ["id", "uid"] = .ident m ∧ (keys m).Nodup ∧
      (∀ k, k ∈ keys m ↔ k ∈ ["id", "uid"] ∧
        k ∈ keys [("id", (JsonNode.leaf 1 : JsonNode Nat)), ("name", .leaf 5)]) ∧
      (∀ k, k ∈ keys m →
        m.lookup k = [("id", (JsonNode.leaf 1 : JsonNode Nat)), ("name", .leaf 5)].lookup k) ∧
      ((["id", "uid"] = [] ∨ ∀ k ∈ ["id", "uid"],
        k ∉ keys [("id", (JsonNode.leaf 1 : JsonNode Nat)), ("name", .leaf 5)]) → m = []) :=
  ⟨rfl, C17_pathIdent_mapping _ _⟩

/-! ## Empty diffs and equality -/

theorem flatMap_nil_of_append_nil {α β : Type} {l : List α} {f : α → List β}
    (h : l.flatMap f = []) : ∀ x ∈ l, f x = [] := by
  induction l with
  | nil => intro x hx; cases hx
  | cons y ys ih =>
    rw [List.flatMap_cons, List.append_eq_nil] at h
    intro x hx
    rcases List.mem_cons.1 hx with hx | hx
    · rw [hx]; exact h.1
    · exact ih h.2 x hx

theorem Equals_of_diff_nil {L : Type} (P : Package L)
    (hP : ∀ (n m : JsonNode L) (q : Path L), n.isObject = false →
      JsonNode.diff P n m q = [] → JsonNode.Equals P n m = true)
    (a : JsonNode L) : ∀ (b : JsonNode L) (q : Path L), a.distinctKeys = true →
      b.distinctKeys = true → JsonNode.diff P a b q = [] → JsonNode.Equals P a b = true := by
  induction a using JsonNode.induct with
  | void => intro b q _ _ h; exact hP .void b q rfl h
  | leaf x => intro b q _ _ h; exact hP (.leaf x) b q rfl h
  | object ps1 ids1 ih =>
    intro b q had hbd h
    cases b with
    | void => rw [diff_object_of_not_object P ps1 ids1 .void q rfl] at h; cases h
    | leaf y => rw [diff_object_of_not_object P ps1 ids1 (.leaf y) q rfl] at h; cases h
    | object ps2 ids2 =>
      obtain ⟨hnd1, hwf1⟩ := (distinctKeys_object ps1 ids1).1 had
      obtain ⟨hnd2, hwf2⟩ := (distinctKeys_object ps2 ids2).1 hbd
      rw [diff_object, List.append_eq_nil] at h
      have hold := flatMap_nil_of_append_nil h.1
      have hnew := flatMap_nil_of_append_nil h.2
      have hvals : ∀ k v1, (k, v1) ∈ ps1 →
          ∃ v2, ps2.lookup k = some v2 ∧ JsonNode.Equals P v1 v2 = true := by
        intro k v1 hm
        have hk := hold k (mem_sortStrings.2 (mem_keys_of_mem hm))
        have h1 := lookup_of_mem hnd1 hm
        cases h2 : ps2.lookup k with
        | none => simp [diffOldKey, h1, h2] at hk
        | some v2 =>
          simp only [diffOldKey, h1, h2] at hk
          exact ⟨v2, rfl, ih k v1 hm v2 _ (hwf1 k v1 hm) (hwf2 k v2 (lookup_mem h2)) hk⟩
      rw [Equals_object]
      refine ⟨?_, hvals⟩
      have hperm : (keys ps1).Perm (keys ps2) := by
        rw [List.perm_ext_iff_of_nodup hnd1 hnd2]
        intro k
        constructor
        · intro hk
          obtain ⟨⟨k2, v1⟩, hm, rfl⟩ := List.mem_map.1 hk
          obtain ⟨v2, hv2, _⟩ := hvals k2 v1 hm
          exact mem_keys_of_mem (lookup_mem hv2)
        · intro hk
          have hk2 := hnew k (mem_sortStrings.2 hk)
          cases h2 : ps2.lookup k with
          | none => exact absurd hk (lookup_eq_none_iff.1 h2)
          | some v2 =>
            by_cases h1 : (ps1.lookup k).isSome = true
            · exact lookup_isSome_iff.1 h1
            · simp [diffNewKey, h2, h1] at hk2
      simpa [keys] using hperm.length_eq

theorem diff_nil_of_Equals {L : Type} (P : Package L)
    (hP : ∀ (n m : JsonNode L) (q : Path L), n.isObject = false →
      JsonNode.Equals P n m = true → JsonNode.diff P n m q = [])
    (a : JsonNode L) : ∀ (b : JsonNode L) (q : Path L), a.distinctKeys = true →
      JsonNode.Equals P a b = true → JsonNode.diff P a b q = [] := by
  induction a using JsonNode.induct with
  | void => intro b q _ h; exact hP .void b q rfl h
  | leaf x => intro b q _ h; exact hP (.leaf x) b q rfl h
  | object ps1 ids1 ih =>
    intro b q had hE
    cases b with
    | void => simp [JsonNode.Equals] at hE
    | leaf y => simp [JsonNode.Equals] at hE
    | object ps2 ids2 =>
      obtain ⟨hnd1, hwf1⟩ := (distinctKeys_object ps1 ids1).1 had
      obtain ⟨_, hall⟩ := (Equals_object P ps1 ps2 ids1 ids2).1 hE
      have hperm := keys_perm_of_Equals P hnd1 hE
      rw [diff_object, flatMap_eq_nil_of_forall, flatMap_eq_nil_of_forall]
      · rfl
      · intro k hk
        have hk1 : k ∈ keys ps1 := hperm.symm.subset (mem_sortStrings.1 hk)
        simp only [diffNewKey]
        cases ps2.lookup k with
        | none => rfl
        | some v2 => simp [lookup_isSome_iff.2 hk1]
      · intro k _
        simp only [diffOldKey]
        cases h1 : ps1.lookup k with
        | none => rfl
        | some v1 =>
          obtain ⟨v2, hv2, hEv⟩ := hall k v1 (lookup_mem h1)
          simp only [hv2]
          exact ih k v1 (lookup_mem h1) v2 _ (hwf1 k v1 (lookup_mem h1)) hEv

theorem scalarPackage_diff_nil_iff {L : Type} [DecidableEq L] (hash : List UInt8 → HashCode)
    (combine : List HashCode → HashCode) (leafHash : L → HashCode) (voidHash : HashCode)
    (n m : JsonNode L) (q : Path L) (h : n.isObject = false) :
    JsonNode.diff (scalarPackage hash combine leafHash voidHash) n m q = [] ↔
      JsonNode.Equals (scalarPackage hash combine leafHash voidHash) n m = true := by
  have hE : JsonNode.Equals (scalarPackage hash combine leafHash voidHash) n m =
      scalarEquals n m := by
    cases n with
    | object ps ids => simp [JsonNode.isObject] at h
    | void => simp [JsonNode.Equals, scalarPackage]
    | leaf a => simp [JsonNode.Equals, scalarPackage]
  rw [diff_of_not_object _ _ _ h, hE]
  simp only [scalarPackage, scalarDiff]
  cases scalarEquals n m <;> simp

/-- C18. Empty diff implies equality: for two objects (maps with distinct keys at
every level) whose diff is empty, `Equals` is true, when an empty diff implies
equality for the other variants; and when equality also implies an empty diff for
them, the diff is empty exactly when the objects are `Equals`. -/
theorem C18_empty_diff_iff_Equals {L : Type} (P : Package L)
    (hP : ∀ (n m : JsonNode L) (q : Path L), n.isObject = false →
      JsonNode.diff P n m q = [] → JsonNode.Equals P n m = true)
    (ps1 ps2 : List (String × JsonNode L)) (ids1 ids2 : List String) (p : Path L)
    (ha : JsonNode.distinctKeys (.object ps1 ids1) = true)
    (hb : JsonNode.distinctKeys (.object ps2 ids2) = true) :
    (JsonNode.diff P (.object ps1 ids1) (.object ps2 ids2) p = [] →
      JsonNode.Equals P (.object ps1 ids1) (.object ps2 ids2) = true) ∧
    ((∀ (n m : JsonNode L) (q : Path L), n.isObject = false →
        JsonNode.Equals P n m = true → JsonNode.diff P n m q = []) →
      (JsonNode.diff P (.object ps1 ids1) (.object ps2 ids2) p = [] ↔
        JsonNode.Equals P (.object ps1 ids1) (.object ps2 ids2) = true)) :=
  ⟨Equals_of_diff_nil P hP _ _ p ha hb,
    fun hP2 => ⟨Equals_of_diff_nil P hP _ _ p ha hb, diff_nil_of_Equals P hP2 _ _ p ha⟩⟩

/-- C18 at `{"a":1,"b":{"c":2}}` and the same object stored as `{"b":{"c":2},"a":1}`:
the diff is empty and the objects are `Equals`. -/
theorem C18_empty_diff_iff_Equals_witness :
    JsonNode.diff examplePackage
      (.object [("a", .leaf 1), ("b", .object [("c", .leaf 2)] [])] [])
      (.object [("b", .object [("c", .leaf 2)] []), ("a", .leaf 1)] []) [] = [] ∧
    JsonNode.Equals examplePackage
      (.object [("a", .leaf 1), ("b", .object [("c", .leaf 2)] [])] [])
      (.object [("b", .object [("c", .leaf 2)] []), ("a", .leaf 1)] []) = true :=
  ⟨rfl, (C18_empty_diff_iff_Equals examplePackage
    (fun n m q h => (scalarPackage_diff_nil_iff _ _ _ _ n m q h).1)
    [("a", .leaf 1), ("b", .object [("c", .leaf 2)] [])]
    [("b", .object [("c", .leaf 2)] []), ("a", .leaf 1)] [] [] []
    (by decide) (by decide)).1 rfl⟩

/-! ## Patch and the state of the receiver -/

theorem mapSet_of_lookup {α : Type} {k : String} {v : α} :
    ∀ {ps : List (String × α)}, ps.lookup k = some v → mapSet ps k v = ps
  | [], h => by simp at h
  | (k2, v2) :: rest, h => by
    rw [lookup_cons_eq] at h
    by_cases hk : k = k2
    · rw [if_pos hk] at h
      cases h
      rw [mapSet, if_pos hk.symm, hk]
    · rw [if_neg hk] at h
      rw [mapSet, if_neg (fun e => hk e.symm), mapSet_of_lookup h]

/-- The explicit-state rendering of patch returns what `patch` returns. -/
theorem patchInPlace_snd {L : Type} (P : Package L) :
    ∀ (pa : Path L) (n : JsonNode L) (pb : Path L) (oldValues newValues : List (JsonNode L)),
      (JsonNode.patchInPlace P n pb pa oldValues newValues).2 =
        JsonNode.patch P n pb pa oldValues newValues
  | pa, .void, pb, oldValues, newValues => by
    rw [JsonNode.patchInPlace, JsonNode.patch]
  | pa, .leaf a, pb, oldValues, newValues => by
    rw [JsonNode.patchInPlace, JsonNode.patch]
  | [], .object ps ids, pb, oldValues, newValues => by
    rw [JsonNode.patchInPlace, patch_object_nil]
  | .index i :: rest, .object ps ids, pb, oldValues, newValues => by
    simp [JsonNode.patchInPlace, JsonNode.patch]
  | .ident m :: rest, .object ps ids, pb, oldValues, newValues => by
    simp [JsonNode.patchInPlace, JsonNode.patch]
  | .key k :: rest, .object ps ids, pb, oldValues, newValues => by
    have ih := patchInPlace_snd P rest (nextNode ps k) (pb ++ [.key k]) oldValues newValues
    rw [JsonNode.patchInPlace, patch_object_key]
    simp only [ih]
    cases JsonNode.patch P (nextNode ps k) (pb ++ [.key k]) rest oldValues newValues with
    | error err => rfl
    | ok c =>
      simp only [mapPut]
      split <;> rfl

/-- A call of patch that fails leaves its receiver as it was. -/
theorem patchInPlace_fst_of_error {L : Type} (P : Package L) :
    ∀ (pa : Path L) (n : JsonNode L) (pb : Path L) (oldValues newValues : List (JsonNode L))
      (err : PatchError L),
      JsonNode.patch P n pb pa oldValues newValues = .error err →
      (JsonNode.patchInPlace P n pb pa oldValues newValues).1 = n
  | pa, .void, pb, oldValues, newValues, _, _ => by rw [JsonNode.patchInPlace]
  | pa, .leaf a, pb, oldValues, newValues, _, _ => by rw [JsonNode.patchInPlace]
  | [], .object ps ids, pb, oldValues, newValues, _, _ => by rw [JsonNode.patchInPlace]
  | .index i :: rest, .object ps ids, pb, oldValues, newValues, _, _ => by
    simp [JsonNode.patchInPlace]
  | .ident m :: rest, .object ps ids, pb, oldValues, newValues, _, _ => by
    simp [JsonNode.patchInPlace]
  | .key k :: rest, .object ps ids, pb, oldValues, newValues, err, h => by
    have hsnd := patchInPlace_snd P rest (nextNode ps k) (pb ++ [.key k]) oldValues newValues
    rw [patch_object_key] at h
    rw [JsonNode.patchInPlace]
    simp only [hsnd]
    cases hc : JsonNode.patch P (nextNode ps k) (pb ++ [.key k]) rest oldValues newValues with
    | ok c =>
      rw [hc] at h
      simp only at h
      split at h <;> cases h
    | error err2 =>
      have ih := patchInPlace_fst_of_error P rest (nextNode ps k) (pb ++ [.key k]) oldValues
        newValues err2 hc
      simp only [ih]
      cases hl : ps.lookup k with
      | none => rfl
      | some v =>
        have hn : nextNode ps k = v := by rw [nextNode, hl]
        simp only [hn, mapSet_of_lookup hl]

/-- C19. Failed patch step leaves the object unchanged: when a call of patch on an
object returns an error, the object, with its properties and every object nested in
them, is after the call what it was before, and the call returns that error. -/
theorem C19_failed_patch_leaves_object {L : Type} (P : Package L)
    (ps : List (String × JsonNode L)) (idKeys : List String) (pathBehind pathAhead : Path L)
    (oldValues newValues : List (JsonNode L)) (err : PatchError L)
    (h : JsonNode.patch P (.object ps idKeys) pathBehind pathAhead oldValues newValues =
      .error err) :
    (JsonNode.patchInPlace P (.object ps idKeys) pathBehind pathAhead oldValues newValues).1 =
      .object ps idKeys ∧
    (JsonNode.patchInPlace P (.object ps idKeys) pathBehind pathAhead oldValues newValues).2 =
      .error err :=
  ⟨patchInPlace_fst_of_error P pathAhead _ pathBehind oldValues newValues err h,
    (patchInPlace_snd P pathAhead _ pathBehind oldValues newValues).trans h⟩

/-- C19 at `{"o":{"x":5},"y":2}` patched at `["o","x"]` from 1 to 2: the conflict on `x`
leaves the object and the nested object as they were. -/
theorem C19_failed_patch_leaves_object_witness :
    (JsonNode.patchInPlace examplePackage
        (.object [("o", .object [("x", .leaf 5)] []), ("y", .leaf 2)] []) []
        [.key "o", .key "x"] [.leaf 1] [.leaf 2]).1 =
      .object [("o", .object [("x", .leaf 5)] []), ("y", .leaf 2)] [] ∧
    (JsonNode.patchInPlace examplePackage
        (.object [("o", .object [("x", .leaf 5)] []), ("y", .leaf 2)] []) []
        [.key "o", .key "x"] [.leaf 1] [.leaf 2]).2 =
      .error (.patchConflict (.leaf 1) (.leaf 5) [.key "o", .key "x"]) :=
  C19_failed_patch_leaves_object examplePackage _ _ _ _ _ _ _ rfl

/-! ## Single-valued diffs -/

/-- Every element of a diff has at most one old and one new value, when this holds
of the diffs of the variants other than the object. -/
theorem diff_single_valued {L : Type} (P : Package L)
    (hP : ∀ (n m : JsonNode L) (q : Path L) (e : DiffElement L), n.isObject = false →
      e ∈ JsonNode.diff P n m q → e.OldValues.length ≤ 1 ∧ e.NewValues.length ≤ 1)
    (n : JsonNode L) : ∀ (m : JsonNode L) (q : Path L) (e : DiffElement L),
      e ∈ JsonNode.diff P n m q → e.OldValues.length ≤ 1 ∧ e.NewValues.length ≤ 1 := by
  induction n using JsonNode.induct with
  | void => intro m q e he; exact hP .void m q e rfl he
  | leaf a => intro m q e he; exact hP (.leaf a) m q e rfl he
  | object ps1 ids1 ih =>
    intro m q e he
    cases m with
    | void =>
      rw [diff_object_of_not_object P ps1 ids1 .void q rfl] at he
      obtain rfl := List.mem_singleton.1 he
      exact ⟨Nat.le_refl _, Nat.le_refl _⟩
    | leaf a =>
      rw [diff_object_of_not_object P ps1 ids1 (.leaf a) q rfl] at he
      obtain rfl := List.mem_singleton.1 he
      exact ⟨Nat.le_refl _, Nat.le_refl _⟩
    | object ps2 ids2 =>
      rw [diff_object, List.mem_append, List.mem_flatMap, List.mem_flatMap] at he
      rcases he with ⟨k, _, hek⟩ | ⟨k, _, hek⟩
      · cases h1 : ps1.lookup k with
        | none => simp only [diffOldKey, h1] at hek; cases hek
        | some v1 =>
          cases h2 : ps2.lookup k with
          | none =>
            simp only [diffOldKey, h1, h2] at hek
            obtain rfl := List.mem_singleton.1 hek
            exact ⟨Nat.le_refl _, Nat.zero_le _⟩
          | some v2 =>
            simp only [diffOldKey, h1, h2] at hek
            exact ih k v1 (lookup_mem h1) v2 _ e hek
      · cases h2 : ps2.lookup k with
        | none => simp only [diffNewKey, h2] at hek; cases hek
        | some v2 =>
          by_cases h1 : (ps1.lookup k).isSome = true
          · simp only [diffNewKey, h2, h1, if_true] at hek; cases hek
          · simp only [diffNewKey, h2, h1, if_false] at hek
            obtain rfl := List.mem_singleton.1 hek
            exact ⟨Nat.zero_le _, Nat.le_refl _⟩

theorem scalarPackage_diff_single_valued {L : Type} [DecidableEq L]
    (hash : List UInt8 → HashCode) (combine : List HashCode → HashCode)
    (leafHash : L → HashCode) (voidHash : HashCode)
    (n m : JsonNode L) (q : Path L) (e : DiffElement L) (h : n.isObject = false)
    (he : e ∈ JsonNode.diff (scalarPackage hash combine leafHash voidHash) n m q) :
    e.OldValues.length ≤ 1 ∧ e.NewValues.length ≤ 1 := by
  rw [diff_of_not_object _ _ _ h] at he
  simp only [scalarPackage, scalarDiff] at he
  split at he
  · cases he
  · obtain rfl := List.mem_singleton.1 he
    exact ⟨Nat.le_refl _, Nat.le_refl _⟩

/-- With at most one old and one new value, patch never fails on the arity check,
at any depth of a tree of objects and scalars. -/
theorem scalarPackage_patch_arity_ok {L : Type} [DecidableEq L]
    (hash : List UInt8 → HashCode) (combine : List HashCode → HashCode)
    (leafHash : L → HashCode) (voidHash : HashCode)
    (oldValues newValues : List (JsonNode L))
    (hold : oldValues.length ≤ 1) (hnew : newValues.length ≤ 1) :
    ∀ (pa : Path L) (n : JsonNode L) (pb : Path L) (ov nv : List (JsonNode L)) (pth : Path L),
      JsonNode.patch (scalarPackage hash combine leafHash voidHash) n pb pa oldValues
        newValues ≠ .error (.nonSetDiffEntry ov nv pth) := by
  have harity : ¬ (oldValues.length > 1 ∨ newValues.length > 1) := by omega
  have hscalar : ∀ (pa : Path L) (n : JsonNode L) (pb : Path L)
      (ov nv : List (JsonNode L)) (pth : Path L),
      scalarPatch n pb pa oldValues newValues ≠ .error (.nonSetDiffEntry ov nv pth) := by
    intro pa n pb ov nv pth h
    cases pa with
    | cons pe rest => simp [scalarPatch] at h
    | nil =>
      simp only [scalarPatch, if_neg harity] at h
      split at h
      · simp [patchErrExpectValue] at h
      · cases h
  intro pa
  induction pa with
  | nil =>
    intro n pb ov nv pth h
    cases n with
    | void =>
      rw [@patch_of_not_object L _ JsonNode.void pb [] oldValues newValues rfl] at h
      exact hscalar [] .void pb ov nv pth h
    | leaf a =>
      rw [@patch_of_not_object L _ (JsonNode.leaf a) pb [] oldValues newValues rfl] at h
      exact hscalar [] (.leaf a) pb ov nv pth h
    | object ps ids =>
      rw [patch_object_nil, if_neg harity] at h
      split at h
      · simp [patchErrExpectValue] at h
      · cases h
  | cons pe rest ih =>
    intro n pb ov nv pth h
    cases n with
    | void =>
      rw [@patch_of_not_object L _ JsonNode.void pb (pe :: rest) oldValues newValues rfl] at h
      exact hscalar (pe :: rest) .void pb ov nv pth h
    | leaf a =>
      rw [@patch_of_not_object L _ (JsonNode.leaf a) pb (pe :: rest) oldValues newValues
        rfl] at h
      exact hscalar (pe :: rest) (.leaf a) pb ov nv pth h
    | object ps ids =>
      cases pe with
      | index i => simp [JsonNode.patch] at h
      | ident m => simp [JsonNode.patch] at h
      | key k =>
        rw [patch_object_key] at h
        cases hc : JsonNode.patch (scalarPackage hash combine leafHash voidHash)
            (nextNode ps k) (pb ++ [.key k]) rest oldValues newValues with
        | error err2 =>
          rw [hc] at h
          simp only at h
          cases h
          exact ih _ _ ov nv pth hc
        | ok c =>
          rw [hc] at h
          simp only at h
          split at h <;> cases h

/-- C20. Diff output is single-valued: for two objects made of objects and scalars,
every element of their diff has at most one old value and at most one new value, so
patching any such tree with the old and new values of the element never fails with
`NonSetDiffEntry`. -/
theorem C20_diff_single_valued {L : Type} [DecidableEq L] (hash : List UInt8 → HashCode)
    (combine : List HashCode → HashCode) (leafHash : L → HashCode) (voidHash : HashCode)
    (ps1 ps2 : List (String × JsonNode L)) (ids1 ids2 : List String) (p : Path L)
    (e : DiffElement L)
    (he : e ∈ JsonNode.diff (scalarPackage hash combine leafHash voidHash)
      (.object ps1 ids1) (.object ps2 ids2) p) :
    e.OldValues.length ≤ 1 ∧ e.NewValues.length ≤ 1 ∧
    ∀ (n : JsonNode L) (pb pa : Path L) (ov nv : List (JsonNode L)) (pth : Path L),
      JsonNode.patch (scalarPackage hash combine leafHash voidHash) n pb pa e.OldValues
        e.NewValues ≠ .error (.nonSetDiffEntry ov nv pth) := by
  obtain ⟨h1, h2⟩ := diff_single_valued (scalarPackage hash combine leafHash voidHash)
    (scalarPackage_diff_single_valued hash combine leafHash voidHash) _ _ p e he
  exact ⟨h1, h2, fun n pb pa ov nv pth =>
    scalarPackage_patch_arity_ok hash combine leafHash voidHash _ _ h1 h2 pa n pb ov nv pth⟩

/-- C20 at the element of `diff({"x":1,"o":{"y":1}}, {"x":2,"o":{"y":1}})`, the change
of `x` from 1 to 2. -/
theorem C20_diff_single_valued_witness :
    [JsonNode.leaf 1].length ≤ 1 ∧ [JsonNode.leaf 2].length ≤ 1 ∧
    ∀ (n : JsonNode Nat) (pb pa : Path Nat) (ov nv : List (JsonNode Nat)) (pth : Path Nat),
      JsonNode.patch examplePackage n pb pa [.leaf 1] [.leaf 2] ≠
        .error (.nonSetDiffEntry ov nv pth) :=
  C20_diff_single_valued exampleHash exampleCombine (fun n => exampleHash [UInt8.ofNat n])
    (exampleHash []) [("x", .leaf 1), ("o", .object [("y", .leaf 1)] [])]
    [("x", .leaf 2), ("o", .object [("y", .leaf 1)] [])] [] [] []
    { Path := [.key "x"], OldValues := [.leaf 1], NewValues := [.leaf 2] }
    (by
      have hd : JsonNode.diff examplePackage
          (.object [("x", .leaf 1), ("o", .object [("y", .leaf 1)] [])] [])
          (.object [("x", .leaf 2), ("o", .object [("y", .leaf 1)] [])] []) [] =
          [{ Path := [.key "x"], OldValues := [.leaf 1], NewValues := [.leaf 2] }] := rfl
      exact hd ▸ List.mem_singleton.2 rfl)

end Jd
